import Mathlib

/-!
# Verification of the secrust deductive verifier against its specification

This file is a shallow embedding, in Lean 4, of the core of the secrust
crate: the CFG builder (`src/cfg_builder/*`), the simple-path extractor
(`src/cfg_builder/find_paths.rs`), the weakest-precondition calculator
(`src/wp_calculus/wp_calculus.rs`), the substitution-based variant
(`src/substitution/substitution.rs`), the merge-point post-processor
(`src/cfg_builder/builder.rs`), and the Z3 adaptor
(`src/verifier/z3_parser.rs`, `src/verifier/z3_verifier.rs`,
`src/verifier/verifier.rs`).

Modelling conventions, shared by the whole file:

* Rust `syn` expressions and statements are modelled by the inductive
  types `Expr` and `Stmt` below, restricted to the fragment of Rust the
  crate actually manipulates.  `proc_macro2` token streams are modelled
  by `List Tok`.
* `quote! { .. }.to_string()` is modelled by converting to a token list
  (`exprToToks`) and rendering that list (`toksToString`): tokens are
  separated by single spaces and groups render as the delimiter applied
  to the rendered inner stream, which matches proc-macro2 output shapes
  such as `invariant ! ((2) + 1 == 3)` up to whitespace normalisation.
* The crate frequently re-parses rendered text with `syn::parse_str` or
  `syn::parse2`.  Where the re-parsed text is the rendering of a
  structured value we model the round trip as the identity on the
  structure; the one place where parsing genuinely re-associates (the
  implication/conjunction chaining of the two walkers) is modelled by
  the explicit left re-association functions `chainBin` below.
* `petgraph::graph::DiGraph` is modelled by `Graph`: a list of nodes
  (the index of a node is its position) and a list of labelled edges.
  `add_edge` prepends, because petgraph iterates a node's edges most
  recently added first.  `remove_node` swaps the last node into the
  removed slot and re-labels edges accordingly, exactly as petgraph
  does.
-/

set_option maxHeartbeats 1000000

namespace Secrust

/-! ## Token streams (proc_macro2) -/

/-- Group delimiters of a proc-macro2 `Group`. -/
inductive Delim where
  | paren | bracket | brace
deriving DecidableEq

/-- A proc-macro2 `TokenTree`: identifier, punctuation, literal or
delimited group. -/
inductive Tok where
  | ident (s : String)
  | punct (s : String)
  | lit (s : String)
  | group (d : Delim) (ts : List Tok)

mutual
/-- Render one token as proc-macro2 does. -/
def Tok.render : Tok → String
  | .ident s => s
  | .punct s => s
  | .lit s => s
  | .group d ts =>
    let inner := Tok.renderList ts
    match d with
    | .paren => "(" ++ inner ++ ")"
    | .bracket => "[" ++ inner ++ "]"
    | .brace => "\x7b" ++ inner ++ "\x7d"

/-- Render a token stream: tokens separated by single spaces
(`TokenStream::to_string`). -/
def Tok.renderList : List Tok → String
  | [] => ""
  | [t] => t.render
  | t :: ts => t.render ++ " " ++ Tok.renderList ts
end

/-- `TokenStream::to_string` on a token list. -/
def toksToString (ts : List Tok) : String := Tok.renderList ts

/-! ## Expressions and statements (`syn`) -/

/-- Binary operators (`syn::BinOp`), including the compound-assignment
operators that `syn` also stores in `BinOp` (`AddEq`, ...). -/
inductive BinOp where
  | add | sub | mul | div
  | andB | orB
  | eq | ne | le | lt | ge | gt
  | shr
  | addEq | subEq | mulEq | divEq
deriving DecidableEq

/-- The token spelling of a binary operator. -/
def BinOp.render : BinOp → String
  | .add => "+" | .sub => "-" | .mul => "*" | .div => "/"
  | .andB => "&&" | .orB => "||"
  | .eq => "==" | .ne => "!=" | .le => "<=" | .lt => "<"
  | .ge => ">=" | .gt => ">"
  | .shr => ">>"
  | .addEq => "+=" | .subEq => "-=" | .mulEq => "*=" | .divEq => "/="

/-- `syn::Pat`, restricted to the identifier pattern (with mutability
flag) and a catch-all for complex patterns. -/
inductive Pat where
  | identP (s : String) (isMut : Bool)
  | wildP
deriving DecidableEq

mutual
/-- `syn::Expr`, restricted to the fragment the crate manipulates. -/
inductive Expr where
  /-- `Expr::Path` with a single-segment path (an identifier). -/
  | path (s : String)
  /-- `Expr::Lit` with an integer literal. -/
  | litInt (n : Int)
  /-- `Expr::Lit` with a boolean literal. -/
  | litBool (b : Bool)
  /-- `Expr::Binary`. -/
  | binary (op : BinOp) (l r : Expr)
  /-- `Expr::Unary` with `UnOp::Not`. -/
  | unaryNot (e : Expr)
  /-- `Expr::Paren`. -/
  | paren (e : Expr)
  /-- `Expr::Call`. -/
  | call (f : Expr) (args : List Expr)
  /-- `Expr::MethodCall`. -/
  | methodCall (recv : Expr) (m : String) (args : List Expr)
  /-- `Expr::Macro`: the macro path (an identifier) and the token
  stream inside its delimiters. -/
  | macE (name : String) (tokens : List Tok)
  /-- `Expr::Assign`. -/
  | assignE (l r : Expr)
  /-- `Expr::AssignOp`; the operator is one of the `*Eq` variants. -/
  | assignOpE (op : BinOp) (l r : Expr)
  /-- `Expr::If`: condition, then block, optional else expression
  (an `Expr::Block` or nested `Expr::If`). -/
  | ifE (c : Expr) (thenB : List Stmt) (elseB : Option Expr)
  /-- `Expr::Block`. -/
  | blockE (stmts : List Stmt)
  /-- `Expr::While`. -/
  | whileE (c : Expr) (body : List Stmt)
  /-- `Expr::Return`. -/
  | retE (e : Option Expr)
  /-- `Expr::Verbatim` of a string literal (used for external-contract
  expressions); the payload is the raw string. -/
  | verbatim (s : String)

/-- `syn::Stmt`, restricted to the three shapes the crate handles. -/
inductive Stmt where
  /-- `Stmt::Local`: `let <pat> (= <init>)? ;`. -/
  | localS (pat : Pat) (init : Option Expr)
  /-- `Stmt::Semi`. -/
  | semi (e : Expr)
  /-- `Stmt::Expr` (no trailing semicolon). -/
  | exprS (e : Expr)
end

mutual
/-- Convert an expression to its token stream, modelling
`quote! { #e }`. -/
def exprToToks : Expr → List Tok
  | .path s => [.ident s]
  | .litInt n => [.lit (toString n)]
  | .litBool b => [.ident (toString b)]
  | .binary op l r => exprToToks l ++ [.punct op.render] ++ exprToToks r
  | .unaryNot e => .punct "!" :: exprToToks e
  | .paren e => [.group .paren (exprToToks e)]
  | .call f args => exprToToks f ++ [.group .paren (argsToToks args)]
  | .methodCall recv m args =>
      exprToToks recv ++ [.punct ".", .ident m, .group .paren (argsToToks args)]
  | .macE name ts => [.ident name, .punct "!", .group .paren ts]
  | .assignE l r => exprToToks l ++ [.punct "="] ++ exprToToks r
  | .assignOpE op l r => exprToToks l ++ [.punct op.render] ++ exprToToks r
  | .ifE c t e =>
      let base := .ident "if" :: exprToToks c ++ [.group .brace (stmtsToToks t)]
      match e with
      | some el => base ++ [.ident "else"] ++ exprToToks el
      | none => base
  | .blockE ss => [.group .brace (stmtsToToks ss)]
  | .whileE c b => .ident "while" :: exprToToks c ++ [.group .brace (stmtsToToks b)]
  | .retE oe =>
      match oe with
      | some e => .ident "return" :: exprToToks e
      | none => [.ident "return"]
  | .verbatim s => [.lit ("\"" ++ s ++ "\"")]

/-- Comma-separated argument token streams. -/
def argsToToks : List Expr → List Tok
  | [] => []
  | [e] => exprToToks e
  | e :: es => exprToToks e ++ [.punct ","] ++ argsToToks es

/-- Convert a statement to tokens. -/
def stmtToToks : Stmt → List Tok
  | .localS pat init =>
      let patToks : List Tok :=
        match pat with
        | .identP s true => [.ident "mut", .ident s]
        | .identP s false => [.ident s]
        | .wildP => [.ident "_"]
      let initToks : List Tok :=
        match init with
        | some e => .punct "=" :: exprToToks e
        | none => []
      .ident "let" :: patToks ++ initToks ++ [.punct ";"]
  | .semi e => exprToToks e ++ [.punct ";"]
  | .exprS e => exprToToks e

/-- Convert a block's statements to tokens. -/
def stmtsToToks : List Stmt → List Tok
  | [] => []
  | s :: ss => stmtToToks s ++ stmtsToToks ss
end

/-- `quote! { #e }.to_string()`. -/
def renderExpr (e : Expr) : String := toksToString (exprToToks e)

/-- `quote! { #s }.to_string()` on a statement. -/
def renderStmt (s : Stmt) : String := toksToString (stmtToToks s)

/-! ## The CFG data model (`src/cfg_builder/node.rs`) -/

/-- `ConditionalExpr`: the conditional stored in a `Condition` node.
(The `ForLoop` variant is outside the fragment modelled here; its
condition payload is the iterator expression, not a formula.) -/
inductive ConditionalExpr where
  | ifC (e : Expr)
  | whileC (e : Expr)

/-- `ConditionalExpr::to_syn_expr`. -/
def ConditionalExpr.toSynExpr : ConditionalExpr → Expr
  | .ifC e => e
  | .whileC e => e

/-- `CfgNode`. -/
inductive CfgNode where
  | function (name : String)
  | precondition (text : String) (e : Option Expr)
  | postcondition (text : String) (e : Option Expr)
  | invariant (text : String) (e : Option Expr)
  | statement (text : String) (s : Option Stmt)
  | cutoff (text : String)
  | condition (text : String) (e : Option ConditionalExpr)
  | ret (text : String)
  | mergePoint

/-- A labelled directed edge, `petgraph` style. -/
structure Edge where
  src : Nat
  dst : Nat
  lab : String
deriving DecidableEq

/-- A `DiGraph<CfgNode, String>`: node indices are list positions. -/
structure Graph where
  nodes : List CfgNode
  edges : List Edge

/-- Node lookup; all source accesses use valid indices, the default is
the inert `MergePoint`. -/
def Graph.nodeAt (g : Graph) (i : Nat) : CfgNode :=
  g.nodes.getD i CfgNode.mergePoint

/-- `graph.edges(i)`: outgoing edges of `i` in iteration order. -/
def Graph.outEdges (g : Graph) (i : Nat) : List Edge :=
  g.edges.filter (fun e => e.src == i)

/-- Out-degree of a node. -/
def Graph.outdeg (g : Graph) (i : Nat) : Nat := (g.outEdges i).length

/-- `graph.edges_connecting(a, b)` in iteration order. -/
def Graph.edgesConnecting (g : Graph) (a b : Nat) : List Edge :=
  g.edges.filter (fun e => e.src == a && e.dst == b)

/-- Incoming edges (`edges_directed(i, Incoming)`). -/
def Graph.inEdges (g : Graph) (i : Nat) : List Edge :=
  g.edges.filter (fun e => e.dst == i)

/-- `add_edge`: prepend (petgraph iterates most recently added first). -/
def Graph.addEdge (g : Graph) (src dst : Nat) (lab : String) : Graph :=
  { g with edges := ⟨src, dst, lab⟩ :: g.edges }

/-- Is this node a `MergePoint`? -/
def CfgNode.isMerge : CfgNode → Bool
  | .mergePoint => true
  | _ => false

/-- Is this node one of the four cut kinds used by the path
extractors? -/
def CfgNode.isCut : CfgNode → Bool
  | .precondition _ _ => true
  | .postcondition _ _ => true
  | .invariant _ _ => true
  | .cutoff _ => true
  | _ => false

/-- `petgraph`'s `remove_node`: delete all edges incident to `i`, then
swap the last node into slot `i`, renaming index `len - 1` to `i` in
the remaining edges.  (Callers in the crate only remove valid
indices.) -/
def Graph.removeNode (g : Graph) (i : Nat) : Graph :=
  let edges1 := g.edges.filter (fun e => !(e.src == i) && !(e.dst == i))
  let last := g.nodes.length - 1
  if i = last then
    { nodes := g.nodes.dropLast, edges := edges1 }
  else
    let ren : Nat → Nat := fun k => if k = last then i else k
    { nodes := (g.nodes.set i (g.nodes.getD last CfgNode.mergePoint)).dropLast,
      edges := edges1.map (fun e => ⟨ren e.src, ren e.dst, e.lab⟩) }

end Secrust

namespace Secrust

/-! ## Label cleanup (`CfgBuilder::clean_up_formatting`) -/

/-- The punctuation class of the cleanup regex
`\s*([\(\)\[\]!\.,;])\s*`. -/
def isCleanupPunct (c : Char) : Bool :=
  c = '(' || c = ')' || c = '[' || c = ']' || c = '!' || c = '.' || c = ',' || c = ';'

/-- One left-to-right pass of `re.replace_all(input, "$1")`: drop
whitespace adjacent to a cleanup punctuation character.  Fuel-indexed
because the scan skips over whitespace runs. -/
def cleanupGo : Nat → List Char → List Char
  | 0, l => l
  | _ + 1, [] => []
  | fuel + 1, c :: rest =>
    if isCleanupPunct c then
      c :: cleanupGo fuel (rest.dropWhile Char.isWhitespace)
    else if c.isWhitespace then
      match (c :: rest).dropWhile Char.isWhitespace with
      | p :: rest' =>
        if isCleanupPunct p then p :: cleanupGo fuel (rest'.dropWhile Char.isWhitespace)
        else c :: cleanupGo fuel rest
      | [] => c :: cleanupGo fuel rest
    else
      c :: cleanupGo fuel rest

/-- `CfgBuilder::clean_up_formatting`: strip whitespace around
punctuation, then the two ad-hoc replacements. -/
def cleanUpFormatting (input : String) : String :=
  let cleaned := String.mk (cleanupGo (input.length + 1) input.toList)
  (cleaned.replace "vec! [" "vec![").replace "+ " " + "

/-! ## The CFG builder state (`src/cfg_builder/builder.rs`) -/

/-- An entry of the external-contract table. -/
structure ExternalMethod where
  name : String
  preconditions : List String
  postconditions : List String

/-- The loaded external-contract table. -/
structure ExternalMethods where
  externalMethods : List ExternalMethod

/-- `CfgBuilder`. -/
structure CfgBuilder where
  graph : Graph
  currentNode : Option Nat
  nextEdgeLabel : Option String
  externalConditions : ExternalMethods
  postconditions : List CfgNode

/-- `CfgBuilder::new` with an already-loaded (possibly empty)
external-contract table; file I/O is outside the model. -/
def CfgBuilder.new (ext : ExternalMethods) : CfgBuilder :=
  { graph := { nodes := [], edges := [] },
    currentNode := none, nextEdgeLabel := none,
    externalConditions := ext, postconditions := [] }

/-- `CfgBuilder::add_node`: append the node, draw an edge from the
current node using the pending label, advance the cursor. -/
def CfgBuilder.addNode (b : CfgBuilder) (node : CfgNode) : CfgBuilder × Nat :=
  let index := b.graph.nodes.length
  let g1 : Graph := { b.graph with nodes := b.graph.nodes ++ [node] }
  match b.currentNode with
  | some current =>
    let label := b.nextEdgeLabel.getD ""
    ({ b with graph := g1.addEdge current index label,
              nextEdgeLabel := none, currentNode := some index }, index)
  | none =>
    ({ b with graph := g1, currentNode := some index }, index)

/-- `CfgBuilder::add_node_without_edge`. -/
def CfgBuilder.addNodeWithoutEdge (b : CfgBuilder) (node : CfgNode) : CfgBuilder × Nat :=
  let index := b.graph.nodes.length
  ({ b with graph := { b.graph with nodes := b.graph.nodes ++ [node] },
            currentNode := some index }, index)

/-- `CfgBuilder::add_edge_with_label`. -/
def CfgBuilder.addEdgeWithLabel (b : CfgBuilder) (from_ to_ : Nat) (label : String) : CfgBuilder :=
  { b with graph := b.graph.addEdge from_ to_ label }

/-- `CfgBuilder::add_postconditions`: append the deferred
postconditions in insertion order and clear the buffer. -/
def CfgBuilder.addPostconditions (b : CfgBuilder) : CfgBuilder :=
  let b1 := b.postconditions.foldl (fun acc pc => (acc.addNode pc).1) b
  { b1 with postconditions := [] }

/-- `format_macro_args`: render the macro's token stream and strip a
leading `!(`, trailing `)` characters and surrounding quotes. -/
def formatMacroArgs (tokens : List Tok) : String :=
  let s := (toksToString tokens).toList
  let s := dropBangParen s
  let s := (s.reverse.dropWhile (fun c => c = ')')).reverse
  let s := s.dropWhile (fun c => c = '\"' || c = '\'')
  let s := (s.reverse.dropWhile (fun c => c = '\"' || c = '\'')).reverse
  String.mk s
where
  /-- `trim_start_matches("!(")`. -/
  dropBangParen : List Char → List Char
    | '!' :: '(' :: rest => dropBangParen rest
    | l => l

/-- `CfgBuilder::format_condition`. -/
def formatCondition (e : Expr) : String := cleanUpFormatting (renderExpr e)

/-- `CfgBuilder::format_pattern_condition`. -/
def formatPatternCondition (p : Pat) : String :=
  let raw := match p with
    | .identP s true => "mut " ++ s
    | .identP s false => s
    | .wildP => "_"
  cleanUpFormatting raw

/-! ## Merge-point post-processing (`CfgBuilder::post_process`) -/

theorem removeNode_nodes_length (g : Graph) (i : Nat) :
    (g.removeNode i).nodes.length = g.nodes.length - 1 := by
  unfold Graph.removeNode
  by_cases h : i = g.nodes.length - 1 <;> simp [h]

theorem addEdge_nodes (g : Graph) (s d : Nat) (l : String) :
    (g.addEdge s d l).nodes = g.nodes := rfl

theorem foldl_addEdge_nodes (g : Graph) (es : List Edge) (t : Nat) :
    (es.foldl (fun acc ie => acc.addEdge ie.src t ie.lab) g).nodes = g.nodes := by
  induction es generalizing g with
  | nil => rfl
  | cons e es ih => rw [List.foldl_cons]; exact (ih _).trans rfl

/-- The worklist loop of `post_process`.  The Rust worklist is a `Vec`
popped from the end; our list keeps the next index to pop at the head
(so the initial worklist below is the merge indices in descending
order) and `push` conses.  Popping an index out of bounds yields no
edges, as petgraph's `edges` does for an invalid index. -/
def postLoop (g : Graph) (wl : List Nat) : Graph :=
  match wl with
  | [] => g
  | m :: rest =>
    if hm : m < g.nodes.length then
      match g.outEdges m with
      | [] => postLoop g rest
      | [e] =>
        -- one outgoing edge: fuse into a MergePoint target, else splice
        let t := e.dst
        let incoming := g.inEdges m
        let g1 := incoming.foldl (fun acc ie => acc.addEdge ie.src t ie.lab) g
        let g2 := g1.removeNode m
        if (g.nodeAt t).isMerge then postLoop g2 (t :: rest)
        else postLoop g2 rest
      | _ :: _ :: _ => postLoop g rest
    else postLoop g rest
termination_by g.nodes.length + wl.length
decreasing_by
  all_goals simp_all [removeNode_nodes_length, foldl_addEdge_nodes]
  all_goals omega

/-- The label-cleanup pass at the end of `post_process`. -/
def cleanupLabels (g : Graph) : Graph :=
  { g with nodes := g.nodes.map fun n =>
      match n with
      | .condition l e => .condition (cleanUpFormatting l) e
      | .statement l s => .statement (cleanUpFormatting l) s
      | other => other }

/-- The initial worklist: all MergePoint indices, collected in
ascending order by `node_indices` and popped from the end of the Vec,
hence reversed here. -/
def Graph.mergeWorklist (g : Graph) : List Nat :=
  ((List.range g.nodes.length).filter (fun i => (g.nodeAt i).isMerge)).reverse

/-- `CfgBuilder::post_process`. -/
def Graph.postProcess (g : Graph) : Graph :=
  cleanupLabels (postLoop g g.mergeWorklist)

/-- The graph after one splice of `post_process`: redirect the
incoming edges of `m` to `t`, then remove `m` (swap-remove). -/
def spliceGraph (g : Graph) (m t : Nat) : Graph :=
  ((g.inEdges m).foldl (fun acc ie => acc.addEdge ie.src t ie.lab) g).removeNode m

/-- No remaining MergePoint has exactly one outgoing edge. -/
def noHalfMerge (g : Graph) : Prop :=
  ∀ s, s < g.nodes.length → (g.nodeAt s).isMerge = true → g.outdeg s ≠ 1

/-- The worklist invariant of the `post_process` loop: the worklist
splits into at most one freshly pushed index followed by a strictly
descending tail; merges have out-degree at most one; every merge with
out-degree one is scheduled in the descending tail; and a pushed index
that would act (in bounds, out-degree one) is duplicated in the
tail. -/
def wlInv (g : Graph) (wl : List Nat) : Prop :=
  ∃ P A, wl = P ++ A ∧ P.length ≤ 1
    ∧ List.Pairwise (fun a b => b < a) A
    ∧ (∀ s, s < g.nodes.length → (g.nodeAt s).isMerge = true → g.outdeg s ≤ 1)
    ∧ (∀ s, s < g.nodes.length → (g.nodeAt s).isMerge = true → g.outdeg s = 1 → s ∈ A)
    ∧ (∀ p, P = [p] → p < g.nodes.length → g.outdeg p = 1 → p ∈ A)

end Secrust

namespace Secrust

/-! ## Simple-path extraction (`src/cfg_builder/find_paths.rs`) -/

/-- `CfgBuilder::negate_condition`: wrap in parentheses and apply `!`. -/
def negateCondition (e : Expr) : Expr := .unaryNot (.paren e)

/-- `CfgBuilder::wrap_with_parens`. -/
def wrapWithParens (e : Expr) : Expr := .paren e

/-- `get_condition_nodes`: all cut-node indices in ascending order. -/
def Graph.getConditionNodes (g : Graph) : List Nat :=
  (List.range g.nodes.length).filter (fun i => (g.nodeAt i).isCut)

mutual
/-- `CfgBuilder::find_paths` (the simple-path DFS).  Fuel-indexed: the
source recursion is only bounded by the cut-node stopping rule (its
`visited`-set cycle check is commented out; the set is threaded but
never observed, so it is omitted here).  The graph is threaded because
the walk relabels Condition nodes in place. -/
def findPaths (fuel : Nat) (g : Graph) (currentNode : Nat)
    (currentPath : List Nat) (paths : List (List Nat)) :
    Graph × List (List Nat) :=
  match fuel with
  | 0 => (g, paths)
  | fuel + 1 =>
    let path' := currentPath ++ [currentNode]
    let edgesInfo := (g.outEdges currentNode).map (fun e => (e.dst, e.lab))
    if (g.nodeAt currentNode).isCut ∧ path'.length > 1 then
      (g, paths ++ [path'])
    else
      findPathsChildren fuel g currentNode path' paths edgesInfo
termination_by (fuel, 0)

/-- The loop body of `find_paths` over the collected `edges_info`:
relabel the Condition node for the branch taken, then recurse into the
target. -/
def findPathsChildren (fuel : Nat) (g : Graph) (currentNode : Nat)
    (path' : List Nat) (paths : List (List Nat))
    (es : List (Nat × String)) : Graph × List (List Nat) :=
  match es with
  | [] => (g, paths)
  | (target, edgeLabel) :: rest =>
    let g1 :=
      match g.nodeAt currentNode with
      | .condition _ (some expr) =>
        let updated :=
          if edgeLabel == "false" then
            match expr with
            | .ifC e => ConditionalExpr.ifC (negateCondition e)
            | .whileC e => ConditionalExpr.whileC (negateCondition e)
          else expr
        let conditionStr := renderExpr updated.toSynExpr
        let newLabel := "assume: " ++ conditionStr
        { g with nodes := g.nodes.set currentNode (.condition newLabel (some updated)) }
      | _ => g
    let res := findPaths fuel g1 target path' paths
    findPathsChildren fuel res.1 currentNode path' res.2 rest
termination_by (fuel, es.length + 1)
end

/-- `CfgBuilder::generate_simple_paths`: run the DFS from every cut
node, accumulating paths and graph relabelling across starts. -/
def generateSimplePaths (fuel : Nat) (g : Graph) : Graph × List (List Nat) :=
  g.getConditionNodes.foldl
    (fun acc startNode => findPaths fuel acc.1 startNode [] acc.2)
    (g, [])

/-! ## Substitution machinery shared by the two walkers
(`src/wp_calculus/wp_calculus.rs` and
`src/substitution/substitution.rs` contain the same
`parse_assignment`-driven `recursive_substitution`;
it is defined once here). -/

mutual
/-- `substitute_in_token_stream` on a single token. -/
def substTokOne (var : String) (repl : List Tok) : Tok → List Tok
  | .ident s => if s == var then repl else [.ident s]
  | .group d inner => [.group d (substToks var repl inner)]
  | t => [t]

/-- `substitute_in_token_stream` on a token stream: identifier tokens
equal to the variable are replaced by the replacement's token stream
(the Rust code stringifies the replacement and re-parses it, which
yields exactly its token stream); groups recurse; all other tokens
pass through. -/
def substToks (var : String) (repl : List Tok) : List Tok → List Tok
  | [] => []
  | t :: ts => substTokOne var repl t ++ substToks var repl ts
end

mutual
/-- `recursive_substitution`: substitute `var` by the parenthesised
replacement.  Note that the parenthesised replacement is passed down
as the next level's `replacement_without_paren`, exactly as in the
source (each recursion level adds one layer of parentheses). -/
def recursiveSubstitution (e : Expr) (var : String) (replacementWithoutParen : Expr) : Expr :=
  let replacement := Expr.paren replacementWithoutParen
  match e with
  | .path s => if s == var then replacement else .path s
  | .macE name toks => .macE name (substToks var (exprToToks replacement) toks)
  | .assignE l r =>
      .assignE (recursiveSubstitution l var replacement) (recursiveSubstitution r var replacement)
  | .binary op l r =>
      .binary op (recursiveSubstitution l var replacement) (recursiveSubstitution r var replacement)
  | .call f args =>
      .call (recursiveSubstitution f var replacement) (recSubstList args var replacement)
  | .unaryNot inner => .unaryNot (recursiveSubstitution inner var replacement)
  | .paren inner => .paren (recursiveSubstitution inner var replacement)
  | .blockE ss => .blockE (recSubstStmts ss var replacement)
  | .ifE c t els =>
      .ifE (recursiveSubstitution c var replacement) (recSubstStmts t var replacement)
        (match els with
         | some el => some (recursiveSubstitution el var replacement)
         | none => none)
  | other => other

/-- Argument lists of `Expr::Call` under `recursive_substitution`. -/
def recSubstList (es : List Expr) (var : String) (replacement : Expr) : List Expr :=
  match es with
  | [] => []
  | e :: rest => recursiveSubstitution e var replacement :: recSubstList rest var replacement

/-- `recursive_substitute_stmt`. -/
def recSubstStmt (s : Stmt) (var : String) (replacement : Expr) : Stmt :=
  match s with
  | .exprS e => .exprS (recursiveSubstitution e var replacement)
  | .semi e => .semi (recursiveSubstitution e var replacement)
  | .localS pat init =>
      .localS pat
        (match init with
         | some e => some (recursiveSubstitution e var replacement)
         | none => none)

/-- Statement lists under `recursive_substitute_stmt`. -/
def recSubstStmts (ss : List Stmt) (var : String) (replacement : Expr) : List Stmt :=
  match ss with
  | [] => []
  | s :: rest => recSubstStmt s var replacement :: recSubstStmts rest var replacement
end

/-- `parse_assignment` as in `wp_calculus.rs`, which recognises plain
assignments, compound assignments and `let` bindings with an
identifier pattern.  The source re-parses the statement's rendered
text; the text of a `Statement` node is the rendering of its stored
statement, so the round trip is modelled as the identity on the
structure.  Note that for a compound assignment `x op= e` the
right-hand side is rebuilt as `Expr::Binary` carrying the *compound*
operator (`syn` stores `+=` as `BinOp::AddEq`). -/
def parseAssignmentStmt : Stmt → Option (String × Expr)
  | .semi (.assignE (.path x) r) => some (x, r)
  | .exprS (.assignE (.path x) r) => some (x, r)
  | .semi (.assignOpE op (.path x) r) => some (x, .binary op (.path x) r)
  | .exprS (.assignOpE op (.path x) r) => some (x, .binary op (.path x) r)
  | .localS (.identP x _) (some e) => some (x, e)
  | _ => none

/-- `parse_assignment` (wp variant) on a `Statement` node's stored
statement. -/
def parseAssignment (os : Option Stmt) : Option (String × Expr) :=
  os.bind parseAssignmentStmt

/-- `parse_assignment` as in `substitution.rs`: same, but without the
`let`-binding branch. -/
def parseAssignmentSubstStmt : Stmt → Option (String × Expr)
  | .semi (.assignE (.path x) r) => some (x, r)
  | .exprS (.assignE (.path x) r) => some (x, r)
  | .semi (.assignOpE op (.path x) r) => some (x, .binary op (.path x) r)
  | .exprS (.assignOpE op (.path x) r) => some (x, .binary op (.path x) r)
  | _ => none

/-- `parse_assignment` (substitution variant) on a `Statement` node's
stored statement. -/
def parseAssignmentSubst (os : Option Stmt) : Option (String × Expr) :=
  os.bind parseAssignmentSubstStmt

/-! ## Chaining by re-parsing

`syn::parse2(quote! { #e >> #w })` (and the `&&` analogue in
`substitution.rs`) concatenates the token streams of `e` and `w`
around the operator and re-parses the result.  The left operand always
renders atomically at the places this is used (an annotation macro, a
parenthesised condition, or `!` applied to a parenthesised condition),
and Rust's binary operators associate to the left, so the parse grafts
`e` onto the left end of `w`'s top-level spine of the same operator.
`chainBin` performs that re-association directly.  (When `w`'s top
operator differs, the re-parse can associate by precedence instead;
the two trees then have the same token stream, and every later
operation of the walkers — leafwise substitution and rendering — is
insensitive to the difference, so the rendered output is unchanged.) -/
def chainBin (op : BinOp) (e w : Expr) : Expr :=
  match w with
  | .binary op' a b =>
    if op' = op then .binary op (chainBin op e a) b else .binary op e w
  | _ => .binary op e w

/-! ## The WP calculator (`src/wp_calculus/wp_calculus.rs`) -/

/-- `CfgBuilder::is_false_branch`: find the first occurrence of the
node in the path, look up the next node on the path, and test whether
the first edge connecting them is labelled `"false"`. -/
def isFalseBranch (g : Graph) (path : List Nat) (currentNode : Nat) : Bool :=
  match path.findIdx? (fun n => n == currentNode) with
  | some index =>
    match path.get? (index + 1) with
    | some nextNode =>
      match (g.edgesConnecting currentNode nextNode).head? with
      | some edge => edge.lab == "false"
      | none => false
    | none => false
  | none => false

/-- One step of the reverse walk of `apply_wp_calculus` (the
`variable_state` map of the source is written but never read, so it is
omitted). -/
def wpStep (g : Graph) (path : List Nat) (w : Option Expr) (nodeIndex : Nat) : Option Expr :=
  match g.nodeAt nodeIndex with
  | .statement _ stmtOpt =>
    match parseAssignment stmtOpt with
    | some (var, e) =>
      match w with
      | some cond => some (recursiveSubstitution cond var e)
      | none => none
    | none => w
  | .condition _ (some conditionalExpr) =>
    let updatedExpr :=
      if isFalseBranch g path nodeIndex then
        match conditionalExpr with
        | .ifC e => ConditionalExpr.ifC (negateCondition e)
        | .whileC e => ConditionalExpr.whileC (negateCondition e)
      else
        match conditionalExpr with
        | .ifC e => ConditionalExpr.ifC (wrapWithParens e)
        | .whileC e => ConditionalExpr.whileC (wrapWithParens e)
    let e := updatedExpr.toSynExpr
    some (match w with
          | some existingCond => chainBin .shr e existingCond
          | none => e)
  | .postcondition _ (some e) =>
    some (match w with
          | some existingCond => chainBin .shr e existingCond
          | none => e)
  | .invariant _ (some e) =>
    some (match w with
          | some existingCond => chainBin .shr e existingCond
          | none => e)
  | .precondition _ (some e) =>
    some (match w with
          | some existingCond => chainBin .shr e existingCond
          | none => e)
  | _ => w

/-- `CfgBuilder::apply_wp_calculus`: walk each path in reverse and
render the final working condition (paths that produce none contribute
nothing). -/
def applyWpCalculus (g : Graph) (paths : List (List Nat)) : List String :=
  paths.foldl
    (fun acc path =>
      match path.reverse.foldl (wpStep g path) none with
      | some cond => acc ++ [renderExpr cond]
      | none => acc)
    []

/-! ## The substitution walker (`src/substitution/substitution.rs`) -/

mutual
/-- `substitute_variables`: replace single-segment path expressions
recorded in the variable-state map; recurse through unary, binary,
call arguments (the callee is left untouched, as in the source) and
parentheses; leave everything else (including macros) unchanged. -/
def substituteVariables (e : Expr) (state : List (String × Expr)) : Expr :=
  match e with
  | .path s =>
    match state.lookup s with
    | some replacement => replacement
    | none => .path s
  | .unaryNot inner => .unaryNot (substituteVariables inner state)
  | .binary op l r => .binary op (substituteVariables l state) (substituteVariables r state)
  | .call f args => .call f (substVarsList args state)
  | .paren inner => .paren (substituteVariables inner state)
  | other => other

/-- Argument lists under `substitute_variables`. -/
def substVarsList (es : List Expr) (state : List (String × Expr)) : List Expr :=
  match es with
  | [] => []
  | e :: rest => substituteVariables e state :: substVarsList rest state
end

/-- One step of the reverse walk of `apply_substitution`.  The state is
the working condition together with the variable-state map (modelled
as an association list with most recent insertion first, which is how
`HashMap::insert`/`get` behave). -/
def substStep (g : Graph) (st : Option Expr × List (String × Expr)) (nodeIndex : Nat) :
    Option Expr × List (String × Expr) :=
  let working := st.1
  let varState := st.2
  match g.nodeAt nodeIndex with
  | .statement _ stmtOpt =>
    -- first the text-level parse (plain and compound assignments only) ...
    let st1 :=
      match parseAssignmentSubst stmtOpt with
      | some (var, e) =>
        (working.map (fun c => recursiveSubstitution c var e), (var, e) :: varState)
      | none => (working, varState)
    -- ... then the structured `Stmt::Local` shape
    match stmtOpt with
    | some (.localS (.identP var _) (some e)) =>
      (st1.1.map (fun c => recursiveSubstitution c var e), (var, e) :: st1.2)
    | _ => st1
  | .condition _ (some conditionalExpr) =>
    let e := conditionalExpr.toSynExpr
    let updated := substituteVariables e varState
    (some (match working with
           | some existing => chainBin .andB updated existing
           | none => updated), varState)
  | .postcondition _ (some e) =>
    let updated := substituteVariables e varState
    (some (match working with
           | some existing => chainBin .andB updated existing
           | none => updated), varState)
  | .invariant _ (some e) =>
    let updated := substituteVariables e varState
    (some (match working with
           | some existing => chainBin .andB updated existing
           | none => updated), varState)
  | .precondition _ (some e) =>
    let updated := substituteVariables e varState
    (some (match working with
           | some existing => chainBin .andB updated existing
           | none => updated), varState)
  | _ => st

/-- `CfgBuilder::apply_substitution`: the conjunction-chaining walker
used by `run_verification`. -/
def applySubstitution (g : Graph) (paths : List (List Nat)) : List String :=
  paths.foldl
    (fun acc path =>
      match (path.reverse.foldl (substStep g) (none, [])).1 with
      | some cond => acc ++ [renderExpr cond]
      | none => acc)
    []

/-- Is this node a `Statement`? -/
def CfgNode.isStatement : CfgNode → Bool
  | .statement _ _ => true
  | _ => false

/-- The payload expressions the substitution walker reads along a
path, in path order: conditions (already `assume:`-rewritten by the
path extractor) and the three annotation kinds. -/
def pathConds (g : Graph) (path : List Nat) : List Expr :=
  path.filterMap fun i =>
    match g.nodeAt i with
    | .condition _ (some ce) => some ce.toSynExpr
    | .postcondition _ (some e) => some e
    | .invariant _ (some e) => some e
    | .precondition _ (some e) => some e
    | _ => none

/-- Token streams joined by `&&` punctuation: the token stream of a
left-nested `&&` chain. -/
def interToks : List (List Tok) → List Tok
  | [] => []
  | [ts] => ts
  | ts :: rest => ts ++ .punct "&&" :: interToks rest

/-- Rendered formulas joined by `\" && \"`: the textual `<e1> && ... &&
<ek>` conjunction language. -/
def conjSep : List String → String
  | [] => ""
  | [s] => s
  | s :: rest => s ++ " && " ++ conjSep rest

/-- Token streams joined by `>>` punctuation: the token stream of a
left-nested `>>` chain. -/
def interToksShr : List (List Tok) → List Tok
  | [] => []
  | [ts] => ts
  | ts :: rest => ts ++ .punct ">>" :: interToksShr rest

/-- Rendered formulas joined by `\" >> \"`: the textual `<e1> >> ... >>
<ek>` implication language of the WP calculator. -/
def shrSep : List String → String
  | [] => ""
  | [s] => s
  | s :: rest => s ++ " >> " ++ shrSep rest

/-- The processed condition expressions the WP calculator reads along
`nodes`, in order: a Condition traversed towards a `\"false\"` edge of
`path0` contributes its negated condition `!(c)`, one traversed
towards a true edge the parenthesised `(c)`; Postcondition, Invariant
and Precondition contribute their expression unchanged. -/
def pathCondsWp (g : Graph) (path0 : List Nat) (nodes : List Nat) : List Expr :=
  nodes.filterMap fun i =>
    match g.nodeAt i with
    | .condition _ (some conditionalExpr) =>
      some ((if isFalseBranch g path0 i then
               match conditionalExpr with
               | .ifC e => ConditionalExpr.ifC (negateCondition e)
               | .whileC e => ConditionalExpr.whileC (negateCondition e)
             else
               match conditionalExpr with
               | .ifC e => ConditionalExpr.ifC (wrapWithParens e)
               | .whileC e => ConditionalExpr.whileC (wrapWithParens e)).toSynExpr)
    | .postcondition _ (some e) => some e
    | .invariant _ (some e) => some e
    | .precondition _ (some e) => some e
    | _ => none

/-- Claim-side step of C1 as stated: identical to `wpStep` except that
every node other than an annotation or a Condition — in particular a
Statement node — leaves the accumulator unchanged. -/
def wpStepSpec (g : Graph) (path : List Nat) (w : Option Expr) (nodeIndex : Nat) : Option Expr :=
  match g.nodeAt nodeIndex with
  | .condition _ (some conditionalExpr) =>
    let updatedExpr :=
      if isFalseBranch g path nodeIndex then
        match conditionalExpr with
        | .ifC e => ConditionalExpr.ifC (negateCondition e)
        | .whileC e => ConditionalExpr.whileC (negateCondition e)
      else
        match conditionalExpr with
        | .ifC e => ConditionalExpr.ifC (wrapWithParens e)
        | .whileC e => ConditionalExpr.whileC (wrapWithParens e)
    let e := updatedExpr.toSynExpr
    some (match w with
          | some existingCond => chainBin .shr e existingCond
          | none => e)
  | .postcondition _ (some e) =>
    some (match w with
          | some existingCond => chainBin .shr e existingCond
          | none => e)
  | .invariant _ (some e) =>
    some (match w with
          | some existingCond => chainBin .shr e existingCond
          | none => e)
  | .precondition _ (some e) =>
    some (match w with
          | some existingCond => chainBin .shr e existingCond
          | none => e)
  | _ => w

/-- Claim-side WP calculator of C1 as stated, built on `wpStepSpec`. -/
def applyWpCalculusSpec (g : Graph) (paths : List (List Nat)) : List String :=
  paths.foldl
    (fun acc path =>
      match path.reverse.foldl (wpStepSpec g path) none with
      | some cond => acc ++ [renderExpr cond]
      | none => acc)
    []

end Secrust

namespace Secrust

/-! ## The builder's statement handlers
(`handle_macros.rs`, `handle_call.rs`, `handle_return.rs`) -/

/-- `process_external_conditions`: look up the name in the table; if
found, bracket a `Call:` statement with the contract's pre- and
postconditions (materialised as `Expr::Verbatim` of the contract
strings), else emit just the `Call:` statement. -/
def processExternalConditions (b : CfgBuilder) (name : String) (callExpression : String) :
    CfgBuilder :=
  match b.externalConditions.externalMethods.find? (fun m => m.name == name) with
  | some externalMethod =>
    let b1 := externalMethod.preconditions.foldl
      (fun acc pre => (acc.addNode (.precondition pre (some (.verbatim pre)))).1) b
    let b2 := (b1.addNode (.statement ("Call: " ++ callExpression) none)).1
    externalMethod.postconditions.foldl
      (fun acc post => (acc.addNode (.postcondition post (some (.verbatim post)))).1) b2
  | none =>
    (b.addNode (.statement ("Call: " ++ callExpression) none)).1

/-- `process_macro`: a non-annotation macro in expression position is
funnelled through the external-contract lookup under the name
`<ident>!`. -/
def processMacro (b : CfgBuilder) (name : String) (tokens : List Tok) : CfgBuilder :=
  processExternalConditions b (name ++ "!") (renderExpr (.macE name tokens))

/-- `process_macro_call_as_function` (the `vec![..]` path of
`handle_call`). -/
def processMacroCallAsFunction (b : CfgBuilder) (args : List Expr) (macroName : String) :
    CfgBuilder :=
  let callExpression := macroName ++ "[" ++ toksToString (argsToToks args) ++ "]"
  processExternalConditions b macroName callExpression

/-- `handle_method_call`: bracket the call with the matched external
contract, or emit a single statement node. -/
def handleMethodCall (b : CfgBuilder) (recv : Expr) (methodName : String) (args : List Expr) :
    CfgBuilder :=
  let callExpr := Expr.methodCall recv methodName args
  match b.externalConditions.externalMethods.find? (fun m => m.name == methodName) with
  | some externalMethod =>
    let b1 := externalMethod.preconditions.foldl
      (fun acc pre => (acc.addNode (.precondition pre (some callExpr))).1) b
    let callDescription := "Call: " ++ cleanUpFormatting (renderExpr callExpr)
    let b2 := (b1.addNode (.statement callDescription (some (.exprS callExpr)))).1
    externalMethod.postconditions.foldl
      (fun acc post => (acc.addNode (.postcondition post (some callExpr))).1) b2
  | none =>
    let callDescription := "Call: " ++ cleanUpFormatting (renderExpr callExpr)
    (b.addNode (.statement callDescription (some (.exprS callExpr)))).1

/-- `handle_return_statement`. -/
def handleReturnStatement (b : CfgBuilder) (oe : Option Expr) : CfgBuilder :=
  let returnExpr := match oe with
    | some e => renderExpr e
    | none => ""
  (b.addNode (.ret returnExpr)).1

/-! ## The builder's expression dispatch
(`builder.rs`, `handle_condition.rs`, `handle_loops.rs`) -/

mutual
/-- `visit_expr`: dispatch on the expression variant.  (The `ForLoop`
and `Array` arms are outside the modelled fragment.)  The whole
visitor family carries an explicit recursion fuel; an exhausted fuel
returns the builder unchanged. -/
def visitExpr : Nat → CfgBuilder → Expr → CfgBuilder
  | 0, b, _ => b
  | fuel + 1, b, e =>
    match e with
    | .ifE c thenB elseB => handleIfStatement fuel b (.ifE c thenB elseB)
    | .whileE c body => handleWhileLoop fuel b (.whileE c body)
    | .retE oe => handleReturnStatement b oe
    | .call f args => handleCall fuel b (.call f args)
    | .methodCall recv m args => handleMethodCall b recv m args
    | .macE name tokens => processMacro b name tokens
    | other => (b.addNode (.statement (renderExpr other) (some (.exprS other)))).1

/-- `visit_stmt`. -/
def visitStmt : Nat → CfgBuilder → Stmt → CfgBuilder
  | 0, b, _ => b
  | fuel + 1, b, s =>
    match s with
    | .localS pat init =>
      (b.addNode (.statement (renderStmt (.localS pat init)) (some (.localS pat init)))).1
    | .exprS e => visitExpr fuel b e
    | .semi e => visitExpr fuel b e

/-- `visit_block`. -/
def visitBlock : Nat → CfgBuilder → List Stmt → CfgBuilder
  | 0, b, _ => b
  | fuel + 1, b, ss =>
    match ss with
    | [] => b
    | s :: rest => visitBlock fuel (visitStmt fuel b s) rest

/-- `handle_call`: the `vec` special case, then visit the arguments. -/
def handleCall : Nat → CfgBuilder → Expr → CfgBuilder
  | 0, b, _ => b
  | fuel + 1, b, e =>
    match e with
    | .call f args =>
      let b1 :=
        match f with
        | .path s => if s == "vec" then processMacroCallAsFunction b args "vec!" else b
        | _ => b
      visitExprs fuel b1 args
    | _ => b

/-- Argument lists of `handle_call` under `visit_expr`. -/
def visitExprs : Nat → CfgBuilder → List Expr → CfgBuilder
  | 0, b, _ => b
  | fuel + 1, b, es =>
    match es with
    | [] => b
    | e :: rest => visitExprs fuel (visitExpr fuel b e) rest

/-- `handle_if_statement`: Condition node, true branch, merge point,
else branch (recursing on `else if` through the dispatch), final
cursor at the merge. -/
def handleIfStatement : Nat → CfgBuilder → Expr → CfgBuilder
  | 0, b, _ => b
  | fuel + 1, b, e =>
    match e with
    | .ifE c thenB elseB =>
      let condStr := formatCondition c
      let condLabel :=
        if b.nextEdgeLabel == some "false" then "else if: " ++ condStr
        else "if: " ++ condStr
      let r1 := b.addNode (.condition condLabel (some (.ifC c)))
      let b1 := r1.1
      let condNode := r1.2
      let b2 := { b1 with nextEdgeLabel := some "true", currentNode := some condNode }
      let b3 := visitBlock fuel b2 thenB
      let trueBranchEnd := b3.currentNode
      let r4 := b3.addNodeWithoutEdge .mergePoint
      let b4 := r4.1
      let mergeNode := r4.2
      let b5 :=
        match trueBranchEnd with
        | some trueEnd => b4.addEdgeWithLabel trueEnd mergeNode ""
        | none => b4
      (match elseB with
      | some elseExpr =>
        let b6 := { b5 with currentNode := some condNode, nextEdgeLabel := some "false" }
        let b7 :=
          match elseExpr with
          | .ifE c2 t2 e2 => handleIfStatement fuel b6 (.ifE c2 t2 e2)
          | .blockE blockStmts => visitBlock fuel b6 blockStmts
          | otherE => visitExpr fuel b6 otherE
        let b8 :=
          match b7.currentNode with
          | some falseEnd => b7.addEdgeWithLabel falseEnd mergeNode ""
          | none => b7
        { b8 with currentNode := some mergeNode }
      | none =>
        let b6 := b5.addEdgeWithLabel condNode mergeNode "false"
        { b6 with currentNode := some mergeNode })
    | _ => b

/-- `handle_while_loop`: reuse a preceding Invariant as loop-back
target or insert a Cutoff, add the Condition node, process the body
with a `"true"` pending label, draw the `"back to loop"` edge, and
exit through a merge point on the `"false"` edge. -/
def handleWhileLoop : Nat → CfgBuilder → Expr → CfgBuilder
  | 0, b, _ => b
  | fuel + 1, b, e =>
    match e with
    | .whileE c body =>
      let invariantNode :=
        match b.currentNode with
        | some current =>
          match b.graph.nodeAt current with
          | .invariant _ _ => some current
          | _ => none
        | none => none
      let r1 : CfgBuilder × Nat :=
        match invariantNode with
        | none => b.addNode (.cutoff "")
        | some inv => (b, inv)
      let b1 := r1.1
      let loopBackNode := r1.2
      let condStr := formatCondition c
      let r2 := b1.addNode (.condition ("while: " ++ condStr) (some (.whileC c)))
      let b2 := r2.1
      let condNode := r2.2
      let b3 := { b2 with currentNode := some condNode, nextEdgeLabel := some "true" }
      let b4 := visitBlock fuel b3 body
      let b5 :=
        match b4.currentNode with
        | some endNode => b4.addEdgeWithLabel endNode loopBackNode "back to loop"
        | none => b4
      let r6 := b5.addNodeWithoutEdge .mergePoint
      let b6 := r6.1
      let mergeNode := r6.2
      let b7 := b6.addEdgeWithLabel condNode mergeNode "false"
      { b7 with currentNode := some mergeNode }
    | _ => b
end

end Secrust

namespace Secrust

/-! ## Functions and files (`visit_item_fn`, `visit_file`) -/

/-- A parsed `ItemFn`: name and the statements of its body. -/
structure FnAst where
  name : String
  stmts : List Stmt

/-- `quote!(#i).to_string()` on a whole function item. -/
def renderFn (f : FnAst) : String :=
  "fn " ++ f.name ++ " () " ++ toksToString [.group .brace (stmtsToToks f.stmts)]

/-- The relevant macro names of the gating check. -/
def relevantMacroNames : List String := ["pre", "post", "invariant", "build_cfg"]

/-- The gating check of `visit_item_fn`: does some *top-level*
semicolon-terminated statement of the body consist of a macro
invocation whose name is one of the four relevant annotations? -/
def containsMacros (stmts : List Stmt) : Bool :=
  stmts.any fun s =>
    match s with
    | .semi (.macE name _) => relevantMacroNames.contains name
    | _ => false

/-- The per-statement loop body of `visit_item_fn`: annotation macros
are handled directly, everything else goes through the visitors. -/
def visitItemFnStep (fuel : Nat) (f : FnAst) (acc : CfgBuilder) (stmt : Stmt) : CfgBuilder :=
  match stmt with
  | .semi (.macE name tokens) =>
    if name == "build_cfg" then acc
    else
      let macroArgs := formatMacroArgs tokens
      if name == "pre" then
        (acc.addNode (.precondition macroArgs (some (.macE name tokens)))).1
      else if name == "post" then
        -- deferred: appended at the end of the body
        { acc with postconditions :=
            acc.postconditions ++ [.postcondition macroArgs (some (.macE name tokens))] }
      else if name == "invariant" then
        (acc.addNode (.invariant macroArgs (some (.macE name tokens)))).1
      else
        -- unknown macro: a Statement node carrying the rendering
        -- of the whole function item (`quote!(#i)` in the source)
        (acc.addNode (.statement (renderFn f) (some (.exprS (.macE name tokens))))).1
  | .semi e => visitExpr fuel acc e
  | other => visitStmt fuel acc other

/-- `visit_item_fn`: skip the function unless the gating check passes;
otherwise add the Function node, process each top-level statement,
append the deferred postconditions, and clear the cursor. -/
def visitItemFn (fuel : Nat) (b : CfgBuilder) (f : FnAst) : CfgBuilder :=
  if !(containsMacros f.stmts) then b
  else
    let r0 := b.addNode (.function f.name)
    let b1 := { r0.1 with currentNode := some r0.2 }
    let b2 := f.stmts.foldl (visitItemFnStep fuel f) b1
    let b3 := b2.addPostconditions
    { b3 with currentNode := none }

/-! ## Claim-side reading of the gating condition (spec section on
annotations: a function is processed when its source contains an
annotation) -/

mutual
/-- Does an annotation macro (`pre`, `post`, `invariant`, `build_cfg`)
occur anywhere inside the expression?  Claim-side definition: the
builder's own gate `containsMacros` only looks at top-level `Semi`
statements. -/
def containsAnnotationE : Nat → Expr → Bool
  | 0, _ => false
  | fuel + 1, e =>
    match e with
    | .macE name _ => relevantMacroNames.contains name
    | .binary _ l r => containsAnnotationE fuel l || containsAnnotationE fuel r
    | .unaryNot e1 => containsAnnotationE fuel e1
    | .paren e1 => containsAnnotationE fuel e1
    | .call fn args => containsAnnotationE fuel fn || args.any (fun a => containsAnnotationE fuel a)
    | .methodCall recv _ args =>
      containsAnnotationE fuel recv || args.any (fun a => containsAnnotationE fuel a)
    | .assignE l r => containsAnnotationE fuel l || containsAnnotationE fuel r
    | .assignOpE _ l r => containsAnnotationE fuel l || containsAnnotationE fuel r
    | .ifE c thenB elseB =>
      containsAnnotationE fuel c || thenB.any (fun s => containsAnnotationS fuel s)
        || (match elseB with
            | some ee => containsAnnotationE fuel ee
            | none => false)
    | .blockE ss => ss.any (fun s => containsAnnotationS fuel s)
    | .whileE c body =>
      containsAnnotationE fuel c || body.any (fun s => containsAnnotationS fuel s)
    | .retE (some e1) => containsAnnotationE fuel e1
    | _ => false

/-- Does an annotation macro occur anywhere inside the statement? -/
def containsAnnotationS : Nat → Stmt → Bool
  | 0, _ => false
  | fuel + 1, s =>
    match s with
    | .localS _ (some e) => containsAnnotationE fuel e
    | .localS _ none => false
    | .semi e => containsAnnotationE fuel e
    | .exprS e => containsAnnotationE fuel e
end

/-- Does an annotation macro occur anywhere in a function body?  This
is the claim's reading of \"the function's source textually contains
an annotation\". -/
def containsAnnotationAnywhere (fuel : Nat) (stmts : List Stmt) : Bool :=
  stmts.any (fun s => containsAnnotationS fuel s)

/-- `visit_file` on a parsed file, modelled as its list of function
items. -/
def visitFile (fuel : Nat) (b : CfgBuilder) (fns : List FnAst) : CfgBuilder :=
  fns.foldl (visitItemFn fuel) b

/-- The formula-producing core of `run_verification` (`src/lib.rs`):
parse and visit the file, post-process the CFG, extract the simple
paths (which relabels Condition nodes in the builder's graph), and
hand each path to `apply_substitution`.  File I/O, printing and DOT
output are outside the model; the external-contract table is empty as
when the contract file is absent. -/
def runVerificationFormulas (fuel : Nat) (fns : List FnAst) : List String :=
  let b := visitFile fuel (CfgBuilder.new ⟨[]⟩) fns
  let g := b.graph.postProcess
  let (g2, simplePaths) := generateSimplePaths fuel g
  applySubstitution g2 simplePaths

/-- The simple paths extracted by the `run_verification` pipeline,
exposed for per-path statements. -/
def runVerificationPaths (fuel : Nat) (fns : List FnAst) : Graph × List (List Nat) :=
  generateSimplePaths fuel (visitFile fuel (CfgBuilder.new ⟨[]⟩) fns).graph.postProcess

/-! ## The loop-invariant duplication pass of the basic-path extractor -/

/-- Does the path traverse an edge labelled `"back to loop"`? -/
def pathHasBackToLoopEdge (g : Graph) (path : List Nat) : Bool :=
  (path.zip (path.drop 1)).any fun ab =>
    (g.edgesConnecting ab.1 ab.2).any fun e => e.lab == "back to loop"

/-- Modelled from the spec: the loop-invariant duplication step of the
basic-path extractor.  The extractor itself lives in the `path_finder`
module, which `src/lib.rs` declares (`pub mod path_finder;`) but whose
sources are not present under `src/`; only this duplication step is
needed by the claims.  Per the spec (§4.2): for a raw path that
contains a `"back to loop"` edge and whose first node is an Invariant
`(φ, e)`, create a new sink node that is a fresh copy of that
Invariant with the same text and expression, discard the old final
node of the path, and append the new one. -/
def duplicateInvariantSink (g : Graph) (path : List Nat) : Graph × List Nat :=
  if pathHasBackToLoopEdge g path then
    match path.head? with
    | some firstIdx =>
      match g.nodeAt firstIdx with
      | .invariant t e =>
        let newIdx := g.nodes.length
        ({ g with nodes := g.nodes ++ [.invariant t e] }, path.dropLast ++ [newIdx])
      | _ => (g, path)
    | none => (g, path)
  else (g, path)

/-- Modelled from the spec: the whole duplication pass maps
`duplicateInvariantSink` over the raw enumeration, threading the
graph. -/
def duplicateLoopInvariants (g : Graph) (paths : List (List Nat)) :
    Graph × List (List Nat) :=
  paths.foldl
    (fun acc path =>
      let (g', p') := duplicateInvariantSink acc.1 path
      (g', acc.2 ++ [p']))
    (g, [])

end Secrust

namespace Secrust

/-! ## The SMT adaptor: lowering (`src/verifier/z3_parser.rs`) -/

/-- Z3 `Int`-sorted terms produced by the lowering. -/
inductive Z3Int where
  | lit (n : Int)
  | constI (name : String)
  | add (a b : Z3Int)
  | sub (a b : Z3Int)
  | mul (a b : Z3Int)
  | div (a b : Z3Int)
deriving DecidableEq

/-- Z3 `Bool`-sorted terms produced by the lowering. -/
inductive Z3Bool where
  | lit (b : Bool)
  | notB (a : Z3Bool)
  | andB (a b : Z3Bool)
  | orB (a b : Z3Bool)
  | implies (a b : Z3Bool)
  | eqI (a b : Z3Int)
  | eqB (a b : Z3Bool)
  | le (a b : Z3Int)
  | lt (a b : Z3Int)
  | ge (a b : Z3Int)
  | gt (a b : Z3Int)
deriving DecidableEq

/-- `Z3Var`, restricted to the two sorts the lowering produces. -/
inductive Z3Var where
  | int (i : Z3Int)
  | bool (b : Z3Bool)
deriving DecidableEq

/-- `ImplicationPlaceholder::to_z3_implies`: reverse the chain and
fold it into right-nested implications (`None` on an empty chain,
where the source would panic). -/
def toZ3Implies (chain : List Z3Bool) : Option Z3Bool :=
  match chain.reverse with
  | [] => none
  | last :: rest => some (rest.foldl (fun acc e => Z3Bool.implies e acc) last)

/-- Operator recognition for the small re-parser below. -/
def opOfString (s : String) : Option BinOp :=
  if s = "+" then some .add else if s = "-" then some .sub
  else if s = "*" then some .mul else if s = "/" then some .div
  else if s = "&&" then some .andB else if s = "||" then some .orB
  else if s = "==" then some .eq else if s = "!=" then some .ne
  else if s = "<=" then some .le else if s = "<" then some .lt
  else if s = ">=" then some .ge else if s = ">" then some .gt
  else if s = ">>" then some .shr else none

/-- Rust operator precedence levels for the re-parser below. -/
def opLevel : BinOp → Nat
  | .orB => 1
  | .andB => 2
  | .eq | .ne | .le | .lt | .ge | .gt => 3
  | .shr => 4
  | .add | .sub => 5
  | .mul | .div => 6
  | _ => 0

mutual
/-- Primary expressions of the `syn::parse2::<Expr>` re-parse of a
macro's token stream (fuel-indexed token consumption). -/
def parsePrimary : Nat → List Tok → Option (Expr × List Tok)
  | 0, _ => none
  | fuel + 1, ts =>
    match ts with
    | .ident "true" :: rest => some (.litBool true, rest)
    | .ident "false" :: rest => some (.litBool false, rest)
    | .ident name :: .punct "!" :: .group .paren inner :: rest =>
      some (.macE name inner, rest)
    | .ident s :: rest => some (.path s, rest)
    | .lit s :: rest =>
      match s.toInt? with
      | some n => some (.litInt n, rest)
      | none => none
    | .punct "!" :: rest =>
      match parsePrimary fuel rest with
      | some (e, r) => some (.unaryNot e, r)
      | none => none
    | .group .paren inner :: rest =>
      match parseToksAll fuel inner with
      | some e => some (.paren e, rest)
      | none => none
    | _ => none

/-- Precedence-climbing binary-expression parse. -/
def parseBin : Nat → Nat → List Tok → Option (Expr × List Tok)
  | 0, _, _ => none
  | fuel + 1, minLvl, ts =>
    match parsePrimary fuel ts with
    | some (lhs, rest) => parseBinLoop fuel minLvl lhs rest
    | none => none

/-- The operator loop of the precedence-climbing parse. -/
def parseBinLoop : Nat → Nat → Expr → List Tok → Option (Expr × List Tok)
  | 0, _, lhs, ts => some (lhs, ts)
  | fuel + 1, minLvl, lhs, ts =>
    match ts with
    | .punct opStr :: rest =>
      match opOfString opStr with
      | some op =>
        if minLvl ≤ opLevel op then
          match parseBin fuel (opLevel op + 1) rest with
          | some (rhs, rest') => parseBinLoop fuel minLvl (.binary op lhs rhs) rest'
          | none => none
        else some (lhs, ts)
      | none => some (lhs, ts)
    | _ => some (lhs, ts)

/-- Parse a whole token stream as one expression. -/
def parseToksAll : Nat → List Tok → Option Expr
  | 0, _ => none
  | fuel + 1, ts =>
    match parseBin fuel 0 ts with
    | some (e, []) => some e
    | _ => none
end

/-- A generous fuel bound for re-parsing a macro's token stream. -/
def toksFuel (ts : List Tok) : Nat := 16 + 8 * (toksToString ts).length

/-- `syn::parse2::<Expr>` on a macro's token stream. -/
def parseMacroTokens (ts : List Tok) : Option Expr := parseToksAll (toksFuel ts) ts

mutual
/-- `generate_z3_ast`: lower a `syn` expression to a Z3 term.  `none`
models the `panic!` calls of the source.  Identifiers lower to `Int`
constants keyed by their name (`get_or_create_var` allocates per-name
constants).  The fuel only decreases when the macro arm re-parses its
token stream and recurses into the parsed argument. -/
def generateZ3Ast (fuel : Nat) (e : Expr) : Option Z3Var :=
  match e with
  | .macE name tokens =>
    if name = "invariant" ∨ name = "pre" ∨ name = "post" then
      match fuel with
      | 0 => none
      | f + 1 =>
        match parseMacroTokens tokens with
        | some argExpr => generateZ3Ast f argExpr
        | none => none
    else none
  | .litInt n => some (.int (.lit n))
  | .litBool b => some (.bool (.lit b))
  | .paren inner => generateZ3Ast fuel inner
  | .path s => some (.int (.constI s))
  | .unaryNot inner =>
    match generateZ3Ast fuel inner with
    | some (.bool b) => some (.bool (.notB b))
    | _ => none
  | .binary .shr l r =>
    -- the `BinOp::Shr` arm: collect the left-nested chain, lower the
    -- right operand, and fold into right-nested implications
    (match extractChain fuel l, lowerBool fuel r with
     | some c, some rb =>
       match toZ3Implies (c ++ [rb]) with
       | some b => some (.bool b)
       | none => none
     | _, _ => none)
  | .binary op l r =>
    (match generateZ3Ast fuel l, generateZ3Ast fuel r with
     | some la, some ra =>
       (match op, la, ra with
        | .andB, .bool lb, .bool rb => some (.bool (.andB lb rb))
        | .orB, .bool lb, .bool rb => some (.bool (.orB lb rb))
        | .eq, .int li, .int ri => some (.bool (.eqI li ri))
        | .eq, .bool lb, .bool rb => some (.bool (.eqB lb rb))
        | .le, .int li, .int ri => some (.bool (.le li ri))
        | .ge, .int li, .int ri => some (.bool (.ge li ri))
        | .lt, .int li, .int ri => some (.bool (.lt li ri))
        | .gt, .int li, .int ri => some (.bool (.gt li ri))
        | .add, .int li, .int ri => some (.int (.add li ri))
        | .sub, .int li, .int ri => some (.int (.sub li ri))
        | .mul, .int li, .int ri => some (.int (.mul li ri))
        | .div, .int li, .int ri => some (.int (.div li ri))
        | _, _, _ => none)
     | _, _ => none)
  | _ => none
termination_by (fuel, sizeOf e, 0)

/-- The `extract_chain` helper of the `Shr` arm: traverse the
left-nested `>>` spine and collect each element, which must lower to
a Boolean. -/
def extractChain (fuel : Nat) (e : Expr) : Option (List Z3Bool) :=
  match e with
  | .binary .shr l r =>
    (match extractChain fuel l, lowerBool fuel r with
     | some c, some rb => some (c ++ [rb])
     | _, _ => none)
  | other =>
    (match lowerBool fuel other with
     | some b => some [b]
     | none => none)
termination_by (fuel, sizeOf e, 2)

/-- Lower an expression and require a Boolean result. -/
def lowerBool (fuel : Nat) (e : Expr) : Option Z3Bool :=
  match generateZ3Ast fuel e with
  | some (.bool b) => some b
  | _ => none
termination_by (fuel, sizeOf e, 1)
end

/-! ## The SMT adaptor: discharge
(`verify_condition` in `src/verifier/z3_verifier.rs`; the same
function appears verbatim in `src/verifier/verifier.rs`) -/

/-- `z3::SatResult`. -/
inductive SatResult where
  | unsat | sat | unknown
deriving DecidableEq

/-- The solver's assertion stack: a list of assertion levels, most
recent first.  `push` opens a level, `assert` adds to the current
level, `pop 1` discards the most recent level. -/
def Solver : Type := List (List Z3Bool)

/-- `solver.push()`. -/
def Solver.push (s : Solver) : Solver := ([] : List Z3Bool) :: s

/-- `solver.assert(c)`. -/
def Solver.assertC (s : Solver) (c : Z3Bool) : Solver :=
  match s with
  | frame :: rest => (c :: frame) :: rest
  | [] => [[c]]

/-- `solver.pop(1)`. -/
def Solver.pop1 (s : Solver) : Solver :=
  match s with
  | _ :: rest => rest
  | [] => []

/-- `verify_condition`: push one assertion level, assert the negation,
query the solver (modelled by the oracle `check`, a function of the
assertion stack), print the verdict — and on `sat` the model's value
for every identifier in the environment that the model (the oracle
`getModel`) evaluates — and pop the level before returning.  The
result is the returned boolean, the final solver state, and the
printed lines. -/
def verifyCondition (check : Solver → SatResult)
    (getModel : Option (String → Option String))
    (solver : Solver) (condition : Z3Bool) (vars : List String) :
    Bool × Solver × List String :=
  let s1 := solver.push
  let s2 := s1.assertC (.notB condition)
  let result := check s2
  let out :=
    match result with
    | .unsat => (true, ["Condition is valid (unsatisfiable when negated)."])
    | .sat =>
      let header := "Condition is not valid (counterexample found)."
      let modelLines :=
        match getModel with
        | some m =>
          "Counterexample model assignments:" ::
            vars.filterMap (fun name =>
              match m name with
              | some value => some (name ++ " = " ++ value)
              | none => none)
        | none => []
      (false, header :: modelLines)
    | .unknown => (false, ["Solver could not determine validity."])
  (out.1, s2.pop1, out.2)

end Secrust

namespace Secrust

/-! ## Claim-side (specification) definitions

These definitions follow the wording of the specification / claims and
are compared against the source-side definitions above. -/

/-- Specification-side right-nested implication fold: `[a, b, c, d]`
becomes `a ⇒ (b ⇒ (c ⇒ d))` (spec §4.5). -/
def specRightImplies : List Z3Bool → Option Z3Bool
  | [] => none
  | [b] => some b
  | b :: rest =>
    match specRightImplies rest with
    | some r => some (Z3Bool.implies b r)
    | none => none

/-- A left-associatively parsed `>>` chain `a >> b >> c >> ...`
(Rust's shift operator associates to the left). -/
def leftAssocShr (a : Expr) (rest : List Expr) : Expr :=
  rest.foldl (fun acc e => .binary .shr acc e) a

/-- Is the top-most constructor a `>>`? -/
def isShrTop : Expr → Bool
  | .binary .shr _ _ => true
  | _ => false

/-! ## C10 / C5: the discharge routine -/

theorem toZ3Implies_append_one (c : List Z3Bool) (b : Z3Bool) :
    toZ3Implies (c ++ [b]) =
      some ((c.reverse).foldl (fun acc e => Z3Bool.implies e acc) b) := by
  simp [toZ3Implies]

theorem toZ3Implies_cons (b : Z3Bool) (bs : List Z3Bool) (h : bs ≠ []) :
    toZ3Implies (b :: bs) = (toZ3Implies bs).map (fun r => Z3Bool.implies b r) := by
  cases hrev : bs.reverse with
  | nil => exact absurd (List.reverse_eq_nil_iff.mp hrev) h
  | cons x xs =>
    have hb : (b :: bs).reverse = x :: (xs ++ [b]) := by
      rw [List.reverse_cons, hrev]; rfl
    simp [toZ3Implies, hb, hrev, List.foldl_append]

theorem specRightImplies_eq_toZ3Implies (bs : List Z3Bool) (h : bs ≠ []) :
    specRightImplies bs = toZ3Implies bs := by
  induction bs with
  | nil => simp at h
  | cons b rest ih =>
    cases rest with
    | nil => simp [specRightImplies, toZ3Implies]
    | cons b2 rest2 =>
      have h2 : (b2 :: rest2) ≠ [] := by simp
      rw [toZ3Implies_cons b _ h2, ← ih h2]
      simp only [specRightImplies]
      cases specRightImplies (b2 :: rest2) <;> rfl

end Secrust

namespace Secrust

/-- C10.  The boolean returned by `verify_condition` is `true` exactly
when the solver answers `unsat` on the asserted negation; both a `sat`
answer and an `unknown` answer return `false`, so the return value
alone cannot distinguish an invalid formula from an undetermined
one. -/
theorem verifyCondition_bool_is_unsat_test
    (getModel : Option (String → Option String))
    (solver : Solver) (condition : Z3Bool) (vars : List String) :
    (∀ check : Solver → SatResult,
      (verifyCondition check getModel solver condition vars).1 = true ↔
        check (solver.push.assertC (.notB condition)) = .unsat)
    ∧ (verifyCondition (fun _ => .sat) getModel solver condition vars).1 = false
    ∧ (verifyCondition (fun _ => .unknown) getModel solver condition vars).1 = false
    ∧ (verifyCondition (fun _ => .sat) getModel solver condition vars).1 =
        (verifyCondition (fun _ => .unknown) getModel solver condition vars).1 := by
  refine ⟨fun check => ?_, ?_, ?_, ?_⟩
  · cases h : check (solver.push.assertC (.notB condition)) <;>
      simp [verifyCondition, h]
  · simp [verifyCondition]
  · simp [verifyCondition]
  · simp [verifyCondition]

/-- C5.  The discharge routine pushes exactly one assertion level,
asserts the negation of the formula, reports valid exactly on `unsat`,
prints a model value for every identifier of the per-call environment
on `sat` (provided the solver produced a model that evaluates them),
reports undetermined on `unknown`, and pops the assertion level before
returning on every outcome, restoring the solver's stack. -/
theorem verifyCondition_discharge
    (check : Solver → SatResult) (solver : Solver) (condition : Z3Bool)
    (vars : List String) (m : String → Option String)
    (hmodel : ∀ v ∈ vars, (m v).isSome) :
    ((verifyCondition check (some m) solver condition vars).2.1 = solver)
    ∧ ((verifyCondition check (some m) solver condition vars).1 = true ↔
        check (solver.push.assertC (.notB condition)) = .unsat)
    ∧ (check (solver.push.assertC (.notB condition)) = .sat →
        (verifyCondition check (some m) solver condition vars).1 = false ∧
        ∀ v ∈ vars, ∃ value, m v = some value ∧
          (v ++ " = " ++ value) ∈ (verifyCondition check (some m) solver condition vars).2.2)
    ∧ (check (solver.push.assertC (.notB condition)) = .unknown →
        (verifyCondition check (some m) solver condition vars).1 = false ∧
        (verifyCondition check (some m) solver condition vars).2.2 =
          ["Solver could not determine validity."]) := by
  refine ⟨?_, ?_, ?_, ?_⟩
  · simp [verifyCondition, Solver.push, Solver.assertC, Solver.pop1]
  · cases h : check (solver.push.assertC (.notB condition)) <;> simp [verifyCondition, h]
  · intro h
    refine ⟨by simp [verifyCondition, h], fun v hv => ?_⟩
    obtain ⟨value, hval⟩ := Option.isSome_iff_exists.mp (hmodel v hv)
    refine ⟨value, hval, ?_⟩
    simp only [verifyCondition, h]
    refine List.mem_cons_of_mem _ (List.mem_cons_of_mem _ ?_)
    exact List.mem_filterMap.mpr ⟨v, hv, by simp [hval]⟩
  · intro h
    exact ⟨by simp [verifyCondition, h], by simp [verifyCondition, h]⟩

/-- Witness for C5 at a concrete input. -/
theorem verifyCondition_discharge_witness :
    ((verifyCondition (fun _ => .sat) (some (fun _ => some "0")) [] (.lit true) ["x"]).2.1
        = ([] : Solver))
    ∧ ("x = 0" ∈
        (verifyCondition (fun _ => .sat) (some (fun _ => some "0")) [] (.lit true) ["x"]).2.2) := by
  have h := verifyCondition_discharge (fun _ => .sat) [] (.lit true) ["x"]
    (fun _ => some "0") (by intro v _; rfl)
  refine ⟨h.1, ?_⟩
  obtain ⟨value, hval, hmem⟩ := (h.2.2.1 rfl).2 "x" (by simp)
  cases hval
  exact hmem

end Secrust

namespace Secrust

/-! ## C4: the `>>` chain lowering -/

/-- Specification-side element lowering: the ordered chain elements
must each lower to a Boolean, otherwise the lowering fails (the source
panics). -/
def lowerAllBool (fuel : Nat) : List Expr → Option (List Z3Bool)
  | [] => some []
  | e :: rest =>
    match lowerBool fuel e, lowerAllBool fuel rest with
    | some b, some bs => some (b :: bs)
    | _, _ => none

theorem lowerAllBool_concat (fuel : Nat) (l : List Expr) (x : Expr) :
    lowerAllBool fuel (l ++ [x]) =
      match lowerAllBool fuel l, lowerBool fuel x with
      | some bs, some b => some (bs ++ [b])
      | _, _ => none := by
  induction l with
  | nil =>
    show lowerAllBool fuel [x] = _
    simp only [lowerAllBool]
    cases lowerBool fuel x <;> rfl
  | cons e rest ih =>
    have h1 : (e :: rest) ++ [x] = e :: (rest ++ [x]) := rfl
    have h2 : lowerAllBool fuel (e :: (rest ++ [x])) =
        match lowerBool fuel e, lowerAllBool fuel (rest ++ [x]) with
        | some b, some bs => some (b :: bs)
        | _, _ => none := rfl
    have h3 : lowerAllBool fuel (e :: rest) =
        match lowerBool fuel e, lowerAllBool fuel rest with
        | some b, some bs => some (b :: bs)
        | _, _ => none := rfl
    rw [h1, h2, ih, h3]
    cases lowerBool fuel e <;> cases lowerAllBool fuel rest <;>
      cases lowerBool fuel x <;> rfl

theorem extractChain_not_shr (fuel : Nat) (e : Expr) (he : isShrTop e = false) :
    extractChain fuel e =
      match lowerBool fuel e with
      | some b => some [b]
      | none => none := by
  unfold extractChain
  split
  · simp [isShrTop] at he
  · rfl

theorem extractChain_leftAssoc (fuel : Nat) (a : Expr) (rest : List Expr)
    (ha : isShrTop a = false) :
    extractChain fuel (leftAssocShr a rest) = lowerAllBool fuel (a :: rest) := by
  induction rest using List.reverseRecOn with
  | nil =>
    rw [leftAssocShr, List.foldl_nil, extractChain_not_shr fuel a ha]
    have h4 : lowerAllBool fuel [a] =
        match lowerBool fuel a, (some [] : Option (List Z3Bool)) with
        | some b, some bs => some (b :: bs)
        | _, _ => none := rfl
    rw [h4]
    cases lowerBool fuel a <;> rfl
  | append_singleton ys x ih =>
    have hfold : leftAssocShr a (ys ++ [x]) = .binary .shr (leftAssocShr a ys) x := by
      simp [leftAssocShr, List.foldl_append]
    rw [hfold]
    unfold extractChain
    rw [ih]
    have hsp : (a :: (ys ++ [x])) = (a :: ys) ++ [x] := by simp
    rw [hsp, lowerAllBool_concat]

theorem generateZ3Ast_shr (fuel : Nat) (l r : Expr) :
    generateZ3Ast fuel (.binary .shr l r) =
      (match extractChain fuel l, lowerBool fuel r with
       | some c, some rb =>
         (match toZ3Implies (c ++ [rb]) with
          | some b => some (.bool b)
          | none => none)
       | _, _ => none) := by
  rw [generateZ3Ast]

/-- C4.  When the SMT adaptor lowers a formula whose top connective is
`>>`, the left-associatively parsed chain `a >> b >> c >> d` is
collected into the ordered list `[a, b, c, d]` and folded into the
right-nested implication `a ⇒ (b ⇒ (c ⇒ d))`; each chain element must
lower to a Boolean, otherwise the lowering fails (the source panics).
The hypothesis `isShrTop a = false` states that the head element is
not itself a `>>` (it would otherwise be part of the same
left-associative chain); subsequent elements appear as right operands
and may be arbitrary. -/
theorem generateZ3Ast_shr_chain (fuel : Nat) (a : Expr) (rest : List Expr)
    (hne : rest ≠ []) (ha : isShrTop a = false) :
    generateZ3Ast fuel (leftAssocShr a rest) =
      match lowerAllBool fuel (a :: rest) with
      | some bs =>
        (match specRightImplies bs with
         | some b => some (.bool b)
         | none => none)
      | none => none := by
  rcases List.eq_nil_or_concat rest with rfl | ⟨ys, x, rfl⟩
  · exact absurd rfl hne
  · simp only [List.concat_eq_append]
    have hfold : leftAssocShr a (ys ++ [x]) = .binary .shr (leftAssocShr a ys) x := by
      simp [leftAssocShr, List.foldl_append]
    rw [hfold, generateZ3Ast_shr, extractChain_leftAssoc fuel a ys ha]
    have hsplit : (a :: (ys ++ [x])) = (a :: ys) ++ [x] := by simp
    rw [hsplit, lowerAllBool_concat]
    cases hc : lowerAllBool fuel (a :: ys) with
    | none => rfl
    | some c =>
      cases hr : lowerBool fuel x with
      | none => rfl
      | some rb =>
        have hcne : c ++ [rb] ≠ [] := by simp
        simp only [specRightImplies_eq_toZ3Implies (c ++ [rb]) hcne]

/-- Witness for C4: the chain `true >> (x <= 1) >> false` lowers to
`true ⇒ ((x ≤ 1) ⇒ false)`. -/
theorem generateZ3Ast_shr_chain_witness :
    generateZ3Ast 5 (leftAssocShr (.litBool true)
        [.binary .le (.path "x") (.litInt 1), .litBool false]) =
      some (.bool (.implies (.lit true)
        (.implies (.le (.constI "x") (.lit 1)) (.lit false)))) := by
  have h := generateZ3Ast_shr_chain 5 (.litBool true)
    [.binary .le (.path "x") (.litInt 1), .litBool false] (by simp) (by rfl)
  rw [h]
  simp [lowerAllBool, lowerBool, generateZ3Ast, specRightImplies]

/-! ## C3: the loop-invariant duplication pass (spec-modelled) -/

/-- C3.  For every enumerated path that contains a `"back to loop"`
edge and whose first node is an Invariant `(t, e)`, the duplication
pass discards the path's old final node and appends a freshly created
copy of that Invariant with the same text and expression: the
resulting path is `path.dropLast ++ [fresh]` where `fresh` is the
index of the new node, and the new node is `Invariant (t, e)`
appended to the graph.  (Modelled from the spec: the basic-path
extractor lives in the `path_finder` module, declared in `lib.rs` but
not present under `src/`.) -/
theorem duplicateInvariantSink_spec (g : Graph) (path : List Nat) (t : String)
    (e : Option Expr) (i : Nat)
    (hback : pathHasBackToLoopEdge g path = true)
    (hhead : path.head? = some i)
    (hinv : g.nodeAt i = .invariant t e) :
    (duplicateInvariantSink g path).2 = path.dropLast ++ [g.nodes.length]
    ∧ (duplicateInvariantSink g path).1.nodes = g.nodes ++ [.invariant t e]
    ∧ (duplicateInvariantSink g path).1.nodeAt g.nodes.length = .invariant t e := by
  have hdef : duplicateInvariantSink g path =
      ({ g with nodes := g.nodes ++ [.invariant t e] },
        path.dropLast ++ [g.nodes.length]) := by
    unfold duplicateInvariantSink
    rw [hback, hhead]
    simp [hinv]
  refine ⟨by rw [hdef], by rw [hdef], ?_⟩
  rw [hdef]
  simp [Graph.nodeAt]

/-- Witness for C3 at a concrete loop-body path. -/
theorem duplicateInvariantSink_spec_witness :
    (duplicateInvariantSink
        ⟨[.invariant "i <= n" none, .condition "while: c" none, .statement "s" none],
         [⟨0, 1, ""⟩, ⟨1, 2, "true"⟩, ⟨2, 0, "back to loop"⟩]⟩
        [0, 1, 2, 0]).2 = [0, 1, 2, 3]
    ∧ (duplicateInvariantSink
        ⟨[.invariant "i <= n" none, .condition "while: c" none, .statement "s" none],
         [⟨0, 1, ""⟩, ⟨1, 2, "true"⟩, ⟨2, 0, "back to loop"⟩]⟩
        [0, 1, 2, 0]).1.nodeAt 3 = .invariant "i <= n" none := by
  have h := duplicateInvariantSink_spec
    ⟨[.invariant "i <= n" none, .condition "while: c" none, .statement "s" none],
     [⟨0, 1, ""⟩, ⟨1, 2, "true"⟩, ⟨2, 0, "back to loop"⟩]⟩
    [0, 1, 2, 0] "i <= n" none 0 (by rfl) (by rfl) (by rfl)
  exact ⟨h.1, h.2.2⟩

end Secrust

namespace Secrust

/-! ## C9: what the simple-path extractor mutates -/

/-- Is this node a `Condition`? -/
def CfgNode.isCondition : CfgNode → Bool
  | .condition _ _ => true
  | _ => false

/-- The text payload of a node (used to observe relabelling). -/
def CfgNode.labelText : CfgNode → String
  | .function s => s
  | .precondition s _ => s
  | .postcondition s _ => s
  | .invariant s _ => s
  | .statement s _ => s
  | .cutoff s => s
  | .condition s _ => s
  | .ret s => s
  | .mergePoint => ""

/-- `g1` differs from `g` at most in the payloads of Condition nodes:
the edges, the node count, the positions of Condition nodes, and every
non-Condition node are unchanged. -/
def scopePreserved (g g1 : Graph) : Prop :=
  g1.edges = g.edges ∧ g1.nodes.length = g.nodes.length ∧
    (∀ i, (g1.nodeAt i).isCondition = (g.nodeAt i).isCondition) ∧
    (∀ i, (g.nodeAt i).isCondition = false → g1.nodeAt i = g.nodeAt i)

theorem scopePreserved_refl (g : Graph) : scopePreserved g g :=
  ⟨rfl, rfl, fun _ => rfl, fun _ _ => rfl⟩

theorem scopePreserved_trans {g g1 g2 : Graph}
    (h1 : scopePreserved g g1) (h2 : scopePreserved g1 g2) : scopePreserved g g2 := by
  obtain ⟨e1, l1, c1, n1⟩ := h1
  obtain ⟨e2, l2, c2, n2⟩ := h2
  refine ⟨e2.trans e1, l2.trans l1, fun i => (c2 i).trans (c1 i), fun i hi => ?_⟩
  rw [n2 i (by rw [c1 i]; exact hi), n1 i hi]

theorem nodeAt_set_self (g : Graph) (cur : Nat) (n : CfgNode) (hcur : cur < g.nodes.length) :
    Graph.nodeAt { g with nodes := g.nodes.set cur n } cur = n := by
  simp [Graph.nodeAt, List.getD, List.getElem?_set_self', hcur]

theorem nodeAt_set_ne (g : Graph) (cur i : Nat) (n : CfgNode) (hne : i ≠ cur) :
    Graph.nodeAt { g with nodes := g.nodes.set cur n } i = g.nodeAt i := by
  simp [Graph.nodeAt, List.getD, List.getElem?_set_ne (fun h => hne h.symm)]

theorem scope_set_condition (g : Graph) (cur : Nat) (lab : String)
    (ce : Option ConditionalExpr) (hcur : (g.nodeAt cur).isCondition = true) :
    scopePreserved g { g with nodes := g.nodes.set cur (.condition lab ce) } := by
  have hlt : cur < g.nodes.length := by
    by_contra h
    have : g.nodeAt cur = .mergePoint := by
      simp [Graph.nodeAt, List.getD, List.getElem?_eq_none (by omega : g.nodes.length ≤ cur)]
    rw [this] at hcur
    simp [CfgNode.isCondition] at hcur
  refine ⟨rfl, by simp, fun i => ?_, fun i hi => ?_⟩
  · by_cases h : i = cur
    · subst h
      rw [nodeAt_set_self g i _ hlt]
      rw [show (CfgNode.condition lab ce).isCondition = true from rfl, hcur]
    · rw [nodeAt_set_ne g cur i _ h]
  · by_cases h : i = cur
    · subst h; rw [hcur] at hi; simp at hi
    · rw [nodeAt_set_ne g cur i _ h]

end Secrust

namespace Secrust

theorem scope_findPaths (fuel : Nat) :
    (∀ g c p ps, scopePreserved g (findPaths fuel g c p ps).1) ∧
      (∀ es g c p ps, scopePreserved g (findPathsChildren fuel g c p ps es).1) := by
  induction fuel with
  | zero =>
    have hP : ∀ g c p ps, scopePreserved g (findPaths 0 g c p ps).1 := by
      intro g c p ps; rw [findPaths]; exact scopePreserved_refl g
    refine ⟨hP, fun es => ?_⟩
    induction es with
    | nil => intro g c p ps; rw [findPathsChildren]; exact scopePreserved_refl g
    | cons e rest ihe =>
      intro g c p ps
      rw [findPathsChildren]
      have hg1 : ∀ g1 : Graph, scopePreserved g1
          (match g1.nodeAt c with
           | .condition _ (some expr) =>
             let updated :=
               if e.2 == "false" then
                 match expr with
                 | .ifC e' => ConditionalExpr.ifC (negateCondition e')
                 | .whileC e' => ConditionalExpr.whileC (negateCondition e')
               else expr
             let conditionStr := renderExpr updated.toSynExpr
             let newLabel := "assume: " ++ conditionStr
             { g1 with nodes := g1.nodes.set c (.condition newLabel (some updated)) }
           | _ => g1) := by
        intro g1
        cases hn : g1.nodeAt c with
        | condition lab oe =>
          cases oe with
          | none => exact scopePreserved_refl g1
          | some expr =>
            exact scope_set_condition g1 c _ _ (by rw [hn]; rfl)
        | function s => exact scopePreserved_refl g1
        | precondition s oe => exact scopePreserved_refl g1
        | postcondition s oe => exact scopePreserved_refl g1
        | invariant s oe => exact scopePreserved_refl g1
        | statement s os => exact scopePreserved_refl g1
        | cutoff s => exact scopePreserved_refl g1
        | ret s => exact scopePreserved_refl g1
        | mergePoint => exact scopePreserved_refl g1
      exact scopePreserved_trans (scopePreserved_trans (hg1 g) (hP _ _ _ _)) (ihe _ _ _ _)
  | succ n ih =>
    have hP : ∀ g c p ps, scopePreserved g (findPaths (n + 1) g c p ps).1 := by
      intro g c p ps
      rw [findPaths]
      split
      · exact scopePreserved_refl g
      · exact ih.2 _ _ _ _ _
    refine ⟨hP, fun es => ?_⟩
    induction es with
    | nil => intro g c p ps; rw [findPathsChildren]; exact scopePreserved_refl g
    | cons e rest ihe =>
      intro g c p ps
      rw [findPathsChildren]
      have hg1 : ∀ g1 : Graph, scopePreserved g1
          (match g1.nodeAt c with
           | .condition _ (some expr) =>
             let updated :=
               if e.2 == "false" then
                 match expr with
                 | .ifC e' => ConditionalExpr.ifC (negateCondition e')
                 | .whileC e' => ConditionalExpr.whileC (negateCondition e')
               else expr
             let conditionStr := renderExpr updated.toSynExpr
             let newLabel := "assume: " ++ conditionStr
             { g1 with nodes := g1.nodes.set c (.condition newLabel (some updated)) }
           | _ => g1) := by
        intro g1
        cases hn : g1.nodeAt c with
        | condition lab oe =>
          cases oe with
          | none => exact scopePreserved_refl g1
          | some expr =>
            exact scope_set_condition g1 c _ _ (by rw [hn]; rfl)
        | function s => exact scopePreserved_refl g1
        | precondition s oe => exact scopePreserved_refl g1
        | postcondition s oe => exact scopePreserved_refl g1
        | invariant s oe => exact scopePreserved_refl g1
        | statement s os => exact scopePreserved_refl g1
        | cutoff s => exact scopePreserved_refl g1
        | ret s => exact scopePreserved_refl g1
        | mergePoint => exact scopePreserved_refl g1
      exact scopePreserved_trans (scopePreserved_trans (hg1 g) (hP _ _ _ _)) (ihe _ _ _ _)

end Secrust

namespace Secrust

theorem scope_findPaths_fold (fuel : Nat) (l : List Nat) :
    ∀ g0 ps0, scopePreserved g0
      ((l.foldl (fun acc s => findPaths fuel acc.1 s [] acc.2) (g0, ps0)).1) := by
  induction l with
  | nil => intro g0 ps0; exact scopePreserved_refl g0
  | cons s rest ih =>
    intro g0 ps0
    rw [List.foldl_cons]
    have h1 := (scope_findPaths fuel).1 g0 s [] ps0
    exact scopePreserved_trans h1
      (by
        have := ih (findPaths fuel g0 s [] ps0).1 (findPaths fuel g0 s [] ps0).2
        exact this)

/-- C9 (amended).  The simple-path extractor does not borrow the graph
read-only: it mutates Condition nodes in place (relabelling them to
the `assume:` form, possibly negating the stored condition).  Its
mutation is, however, limited to Condition-node payloads: for every
graph and every fuel, running `generate_simple_paths` leaves the edge
list, the number of nodes, the positions of Condition nodes, and every
non-Condition node unchanged. -/
theorem generateSimplePaths_scope (fuel : Nat) (g : Graph) :
    ((generateSimplePaths fuel g).1.edges = g.edges)
    ∧ ((generateSimplePaths fuel g).1.nodes.length = g.nodes.length)
    ∧ (∀ i, (((generateSimplePaths fuel g).1.nodeAt i)).isCondition =
        ((g.nodeAt i)).isCondition)
    ∧ (∀ i, (g.nodeAt i).isCondition = false →
        (generateSimplePaths fuel g).1.nodeAt i = g.nodeAt i) :=
  scope_findPaths_fold fuel g.getConditionNodes g []

/-- Witness for C9 (amended) at a concrete graph: a Statement node is
untouched by the extraction. -/
theorem generateSimplePaths_scope_witness :
    (generateSimplePaths 5
        ⟨[.precondition "p" none, .statement "s" none], [⟨0, 1, ""⟩]⟩).1.nodeAt 1 =
      .statement "s" none := by
  have h := (generateSimplePaths_scope 5
    ⟨[.precondition "p" none, .statement "s" none], [⟨0, 1, ""⟩]⟩).2.2.2 1 (by rfl)
  rw [h]
  rfl

/-- Counterexample to C9 as stated: extraction does not leave every
node unchanged.  On this three-node graph the Condition node's label
is rewritten from `if: x > 0` to `assume: x > 0` by
`generate_simple_paths`. -/
theorem generateSimplePaths_mutates_condition :
    ((⟨[.precondition "p" (some (.macE "pre" [.ident "p"])),
        .condition "if: x > 0" (some (.ifC (.binary .gt (.path "x") (.litInt 0)))),
        .postcondition "q" (some (.macE "post" [.ident "q"]))],
       [⟨0, 1, ""⟩, ⟨1, 2, "true"⟩]⟩ : Graph).nodeAt 1).labelText = "if: x > 0"
    ∧ ((generateSimplePaths 5
        ⟨[.precondition "p" (some (.macE "pre" [.ident "p"])),
          .condition "if: x > 0" (some (.ifC (.binary .gt (.path "x") (.litInt 0)))),
          .postcondition "q" (some (.macE "post" [.ident "q"]))],
         [⟨0, 1, ""⟩, ⟨1, 2, "true"⟩]⟩).1.nodeAt 1).labelText = "assume: x > 0" := by
  constructor
  · rfl
  · simp +decide [generateSimplePaths, Graph.getConditionNodes, findPaths, findPathsChildren,
      Graph.nodeAt, Graph.outEdges, CfgNode.isCut, CfgNode.labelText, List.range,
      List.range.loop, List.filter, renderExpr, exprToToks, toksToString, Tok.renderList,
      Tok.render, ConditionalExpr.toSynExpr, wrapWithParens, BinOp.render]

end Secrust

namespace Secrust

/-! ## C8: gating of `visit_item_fn` -/

/-- The node list of `b1` extends that of `b`: the builder only ever
appends nodes. -/
def builderExtends (b b1 : CfgBuilder) : Prop :=
  ∃ l, b1.graph.nodes = b.graph.nodes ++ l

theorem builderExtends_refl (b : CfgBuilder) : builderExtends b b := ⟨[], by simp⟩

theorem builderExtends_trans {b b1 b2 : CfgBuilder}
    (h1 : builderExtends b b1) (h2 : builderExtends b1 b2) : builderExtends b b2 := by
  obtain ⟨l1, hl1⟩ := h1
  obtain ⟨l2, hl2⟩ := h2
  exact ⟨l1 ++ l2, by rw [hl2, hl1, List.append_assoc]⟩

theorem addNode_extends (b : CfgBuilder) (n : CfgNode) :
    builderExtends b (b.addNode n).1 := by
  unfold CfgBuilder.addNode
  cases b.currentNode <;> exact ⟨[n], rfl⟩

theorem addNodeWithoutEdge_extends (b : CfgBuilder) (n : CfgNode) :
    builderExtends b (b.addNodeWithoutEdge n).1 := ⟨[n], rfl⟩

theorem addEdgeWithLabel_extends (b : CfgBuilder) (x y : Nat) (l : String) :
    builderExtends b (b.addEdgeWithLabel x y l) := ⟨[], by simp [CfgBuilder.addEdgeWithLabel, Graph.addEdge]⟩

theorem currentNode_update_extends (b : CfgBuilder) (c : Option Nat) :
    builderExtends b { b with currentNode := c } := ⟨[], by simp⟩

theorem foldl_addNode_extends (b : CfgBuilder) (ns : List CfgNode)
    (f : CfgNode → CfgNode) :
    builderExtends b (ns.foldl (fun acc n => (acc.addNode (f n)).1) b) := by
  induction ns generalizing b with
  | nil => exact builderExtends_refl b
  | cons n rest ih =>
    rw [List.foldl_cons]
    exact builderExtends_trans (addNode_extends b (f n)) (ih _)

theorem addPostconditions_extends (b : CfgBuilder) :
    builderExtends b b.addPostconditions := by
  unfold CfgBuilder.addPostconditions
  have h : builderExtends b (b.postconditions.foldl (fun acc pc => (acc.addNode pc).1) b) := by
    have := foldl_addNode_extends b b.postconditions id
    simpa using this
  obtain ⟨l, hl⟩ := h
  exact ⟨l, hl⟩

theorem foldl_addNode_map_extends (b : CfgBuilder) (ss : List String)
    (f : String → CfgNode) :
    builderExtends b (ss.foldl (fun acc s => (acc.addNode (f s)).1) b) := by
  induction ss generalizing b with
  | nil => exact builderExtends_refl b
  | cons s rest ih =>
    rw [List.foldl_cons]
    exact builderExtends_trans (addNode_extends b (f s)) (ih _)

theorem processExternalConditions_extends (b : CfgBuilder) (name ce : String) :
    builderExtends b (processExternalConditions b name ce) := by
  unfold processExternalConditions
  cases b.externalConditions.externalMethods.find? (fun m => m.name == name) with
  | none => exact addNode_extends b _
  | some em =>
    dsimp only
    have h1 := foldl_addNode_map_extends b em.preconditions
      (fun pre => .precondition pre (some (.verbatim pre)))
    have h2 := addNode_extends
      (em.preconditions.foldl
        (fun acc pre => (acc.addNode (.precondition pre (some (.verbatim pre)))).1) b)
      (CfgNode.statement ("Call: " ++ ce) none)
    have h3 := foldl_addNode_map_extends
      ((em.preconditions.foldl
          (fun acc pre => (acc.addNode (.precondition pre (some (.verbatim pre)))).1)
          b).addNode (CfgNode.statement ("Call: " ++ ce) none)).1
      em.postconditions
      (fun post => .postcondition post (some (.verbatim post)))
    exact builderExtends_trans h1 (builderExtends_trans h2 h3)

theorem processMacro_extends (b : CfgBuilder) (name : String) (ts : List Tok) :
    builderExtends b (processMacro b name ts) :=
  processExternalConditions_extends b (name ++ "!") _

theorem processMacroCallAsFunction_extends (b : CfgBuilder) (args : List Expr) (mn : String) :
    builderExtends b (processMacroCallAsFunction b args mn) :=
  processExternalConditions_extends b mn _

theorem handleMethodCall_extends (b : CfgBuilder) (recv : Expr) (m : String) (args : List Expr) :
    builderExtends b (handleMethodCall b recv m args) := by
  unfold handleMethodCall
  cases b.externalConditions.externalMethods.find? (fun em => em.name == m) with
  | none => exact addNode_extends b _
  | some em =>
    dsimp only
    have h1 := foldl_addNode_map_extends b em.preconditions
      (fun pre => .precondition pre (some (.methodCall recv m args)))
    have h2 := addNode_extends
      (em.preconditions.foldl
        (fun acc pre => (acc.addNode (.precondition pre (some (.methodCall recv m args)))).1) b)
      (CfgNode.statement ("Call: " ++ cleanUpFormatting (renderExpr (.methodCall recv m args)))
        (some (.exprS (.methodCall recv m args))))
    have h3 := foldl_addNode_map_extends
      ((em.preconditions.foldl
          (fun acc pre => (acc.addNode (.precondition pre (some (.methodCall recv m args)))).1)
          b).addNode
        (CfgNode.statement ("Call: " ++ cleanUpFormatting (renderExpr (.methodCall recv m args)))
          (some (.exprS (.methodCall recv m args))))).1
      em.postconditions
      (fun post => .postcondition post (some (.methodCall recv m args)))
    exact builderExtends_trans h1 (builderExtends_trans h2 h3)

theorem handleReturnStatement_extends (b : CfgBuilder) (oe : Option Expr) :
    builderExtends b (handleReturnStatement b oe) :=
  addNode_extends b _

end Secrust

namespace Secrust

theorem graph_eq_extends {b b1 : CfgBuilder} (h : b1.graph = b.graph) :
    builderExtends b b1 := ⟨[], by rw [h]; simp⟩

/-- All seven components of the builder's fuelled visitor family only
append nodes, by induction on the fuel. -/
theorem visit_extends_all (fuel : Nat) :
    (∀ (b : CfgBuilder) (e : Expr), builderExtends b (visitExpr fuel b e))
    ∧ (∀ (b : CfgBuilder) (s : Stmt), builderExtends b (visitStmt fuel b s))
    ∧ (∀ (b : CfgBuilder) (ss : List Stmt), builderExtends b (visitBlock fuel b ss))
    ∧ (∀ (b : CfgBuilder) (e : Expr), builderExtends b (handleCall fuel b e))
    ∧ (∀ (b : CfgBuilder) (es : List Expr), builderExtends b (visitExprs fuel b es))
    ∧ (∀ (b : CfgBuilder) (e : Expr), builderExtends b (handleIfStatement fuel b e))
    ∧ (∀ (b : CfgBuilder) (e : Expr), builderExtends b (handleWhileLoop fuel b e)) := by
  induction fuel with
  | zero =>
    exact ⟨fun b _ => builderExtends_refl b, fun b _ => builderExtends_refl b,
           fun b _ => builderExtends_refl b, fun b _ => builderExtends_refl b,
           fun b _ => builderExtends_refl b, fun b _ => builderExtends_refl b,
           fun b _ => builderExtends_refl b⟩
  | succ fuel ih =>
    obtain ⟨ihE, ihS, ihB, ihC, ihEs, ihIf, ihW⟩ := ih
    refine ⟨?_, ?_, ?_, ?_, ?_, ?_, ?_⟩
    -- visit_expr
    · intro b e
      cases e
      case ifE c thenB elseB => exact ihIf b (.ifE c thenB elseB)
      case whileE c body => exact ihW b (.whileE c body)
      case retE oe => exact handleReturnStatement_extends b oe
      case call f args => exact ihC b (.call f args)
      case methodCall recv m args => exact handleMethodCall_extends b recv m args
      case macE name tokens => exact processMacro_extends b name tokens
      all_goals exact addNode_extends b _
    -- visit_stmt
    · intro b s
      cases s
      case localS pat init => exact addNode_extends b _
      case semi e => exact ihE b e
      case exprS e => exact ihE b e
    -- visit_block
    · intro b ss
      cases ss
      case nil => exact builderExtends_refl b
      case cons s rest => exact builderExtends_trans (ihS b s) (ihB _ rest)
    -- handle_call
    · intro b e
      cases e
      case call f args =>
        cases f
        case path s =>
          rw [handleCall.eq_def]
          dsimp only
          split
          · exact builderExtends_trans (processMacroCallAsFunction_extends b args "vec!") (ihEs _ args)
          · exact ihEs b args
        all_goals exact ihEs b args
      all_goals exact builderExtends_refl b
    -- visit_exprs (argument lists)
    · intro b es
      cases es
      case nil => exact builderExtends_refl b
      case cons e rest => exact builderExtends_trans (ihE b e) (ihEs _ rest)
    -- handle_if_statement
    · intro b e
      cases e
      case ifE c thenB elseB =>
        rw [handleIfStatement.eq_def]
        dsimp only
        have hcont : ∀ r1 : CfgBuilder × Nat, builderExtends b r1.1 →
            builderExtends b
              (let b2 := { r1.1 with nextEdgeLabel := some "true", currentNode := some r1.2 }
               let b3 := visitBlock fuel b2 thenB
               let r4 := b3.addNodeWithoutEdge CfgNode.mergePoint
               let b5 := match b3.currentNode with
                 | some trueEnd => r4.1.addEdgeWithLabel trueEnd r4.2 ""
                 | none => r4.1
               match elseB with
               | some elseExpr =>
                 let b6 := { b5 with currentNode := some r1.2, nextEdgeLabel := some "false" }
                 let b7 := match elseExpr with
                   | .ifE c2 t2 e2 => handleIfStatement fuel b6 (.ifE c2 t2 e2)
                   | .blockE blockStmts => visitBlock fuel b6 blockStmts
                   | otherE => visitExpr fuel b6 otherE
                 let b8 := match b7.currentNode with
                   | some falseEnd => b7.addEdgeWithLabel falseEnd r4.2 ""
                   | none => b7
                 { b8 with currentNode := some r4.2 }
               | none =>
                 let b6 := b5.addEdgeWithLabel r1.2 r4.2 "false"
                 { b6 with currentNode := some r4.2 }) := by
          intro r1 hr1
          dsimp only
          set B2 := { r1.1 with nextEdgeLabel := some "true", currentNode := some r1.2 } with hB2
          set B3 := visitBlock fuel B2 thenB with hB3
          set R4 := B3.addNodeWithoutEdge CfgNode.mergePoint with hR4
          have hb3 : builderExtends b B3 :=
            builderExtends_trans hr1 (builderExtends_trans (graph_eq_extends rfl) (ihB B2 thenB))
          have hb4 : builderExtends b R4.1 :=
            builderExtends_trans hb3 (addNodeWithoutEdge_extends B3 CfgNode.mergePoint)
          have hb5 : builderExtends b (match B3.currentNode with
              | some trueEnd => R4.1.addEdgeWithLabel trueEnd R4.2 ""
              | none => R4.1) := by
            cases B3.currentNode with
            | some t => exact builderExtends_trans hb4 (addEdgeWithLabel_extends R4.1 t R4.2 "")
            | none => exact hb4
          have hCursor : ∀ B7 : CfgBuilder, builderExtends b B7 →
              builderExtends b { (match B7.currentNode with
                  | some falseEnd => B7.addEdgeWithLabel falseEnd R4.2 ""
                  | none => B7) with currentNode := some R4.2 } := by
            intro B7 hB7
            cases hc : B7.currentNode with
            | some fe =>
              exact builderExtends_trans hB7
                (builderExtends_trans (addEdgeWithLabel_extends B7 fe R4.2 "") (graph_eq_extends rfl))
            | none => exact builderExtends_trans hB7 (graph_eq_extends rfl)
          have hElse2 : ∀ B5 : CfgBuilder, builderExtends b B5 →
              builderExtends b
                (match elseB with
                 | some elseExpr =>
                   let b6 := { B5 with currentNode := some r1.2, nextEdgeLabel := some "false" }
                   let b7 := match elseExpr with
                     | .ifE c2 t2 e2 => handleIfStatement fuel b6 (.ifE c2 t2 e2)
                     | .blockE blockStmts => visitBlock fuel b6 blockStmts
                     | otherE => visitExpr fuel b6 otherE
                   let b8 := match b7.currentNode with
                     | some falseEnd => b7.addEdgeWithLabel falseEnd R4.2 ""
                     | none => b7
                   { b8 with currentNode := some R4.2 }
                 | none =>
                   let b6 := B5.addEdgeWithLabel r1.2 R4.2 "false"
                   { b6 with currentNode := some R4.2 }) := by
            intro B5 hB5
            cases elseB with
            | none =>
              exact builderExtends_trans hB5
                (builderExtends_trans (addEdgeWithLabel_extends B5 r1.2 R4.2 "false") (graph_eq_extends rfl))
            | some ee =>
              dsimp only
              have hb6 : builderExtends b { B5 with currentNode := some r1.2, nextEdgeLabel := some "false" } :=
                builderExtends_trans hB5 (graph_eq_extends rfl)
              cases ee
              case ifE c2 t2 e2 => exact hCursor _ (builderExtends_trans hb6 (ihIf _ (Expr.ifE c2 t2 e2)))
              case blockE bs => exact hCursor _ (builderExtends_trans hb6 (ihB _ bs))
              all_goals exact hCursor _ (builderExtends_trans hb6 (ihE _ _))
          exact hElse2 _ hb5
        exact hcont _ (addNode_extends b _)
      all_goals exact builderExtends_refl b
    -- handle_while_loop
    · intro b e
      cases e
      case whileE c body =>
        rw [handleWhileLoop.eq_def]
        dsimp only
        have hcont : ∀ r1 : CfgBuilder × Nat, builderExtends b r1.1 →
            builderExtends b
              (let r2 := r1.1.addNode (CfgNode.condition ("while: " ++ formatCondition c) (some (ConditionalExpr.whileC c)))
               let b3 := { r2.1 with currentNode := some r2.2, nextEdgeLabel := some "true" }
               let b4 := visitBlock fuel b3 body
               let b5 := match b4.currentNode with
                 | some endNode => b4.addEdgeWithLabel endNode r1.2 "back to loop"
                 | none => b4
               let r6 := b5.addNodeWithoutEdge CfgNode.mergePoint
               let b7 := r6.1.addEdgeWithLabel r2.2 r6.2 "false"
               { b7 with currentNode := some r6.2 }) := by
          intro r1 hr1
          dsimp only
          set ND := CfgNode.condition ("while: " ++ formatCondition c) (some (ConditionalExpr.whileC c)) with hND
          set R2 := r1.1.addNode ND with hR2
          set B3 := { R2.1 with currentNode := some R2.2, nextEdgeLabel := some "true" } with hB3
          set B4 := visitBlock fuel B3 body with hB4
          have hb4 : builderExtends b B4 :=
            builderExtends_trans hr1 (builderExtends_trans (addNode_extends r1.1 ND)
              (builderExtends_trans (graph_eq_extends rfl) (ihB B3 body)))
          have hb5 : builderExtends b (match B4.currentNode with
              | some endNode => B4.addEdgeWithLabel endNode r1.2 "back to loop"
              | none => B4) := by
            cases B4.currentNode with
            | some t => exact builderExtends_trans hb4 (addEdgeWithLabel_extends B4 t r1.2 "back to loop")
            | none => exact hb4
          have hfin : ∀ B5 : CfgBuilder, builderExtends b B5 →
              builderExtends b
                (let r6 := B5.addNodeWithoutEdge CfgNode.mergePoint
                 { r6.1.addEdgeWithLabel R2.2 r6.2 "false" with currentNode := some r6.2 }) := by
            intro B5 hB5
            exact builderExtends_trans hB5
              (builderExtends_trans (addNodeWithoutEdge_extends B5 CfgNode.mergePoint)
                (builderExtends_trans (addEdgeWithLabel_extends _ R2.2 _ "false") (graph_eq_extends rfl)))
          exact hfin _ hb5
        have hstart : ∀ o : Option Nat,
            builderExtends b ((match o with
              | none => b.addNode (CfgNode.cutoff "")
              | some inv => (b, inv)).1 : CfgBuilder) := by
          intro o
          cases o with
          | none => exact addNode_extends b (CfgNode.cutoff "")
          | some inv => exact builderExtends_refl b
        exact hcont _ (hstart _)
      all_goals exact builderExtends_refl b

end Secrust

namespace Secrust

theorem addNode_nodes (b : CfgBuilder) (n : CfgNode) :
    ((b.addNode n).1).graph.nodes = b.graph.nodes ++ [n] := by
  unfold CfgBuilder.addNode
  cases b.currentNode <;> rfl

/-- Generic fold: if every step only appends nodes, so does the fold. -/
theorem foldl_extends_of_step {α : Type} (step : CfgBuilder → α → CfgBuilder)
    (hstep : ∀ b a, builderExtends b (step b a)) :
    ∀ (l : List α) (b : CfgBuilder), builderExtends b (l.foldl step b) := by
  intro l
  induction l with
  | nil => intro b; exact builderExtends_refl b
  | cons a rest ih =>
    intro b
    rw [List.foldl_cons]
    exact builderExtends_trans (hstep b a) (ih (step b a))

/-- The per-statement loop body of `visit_item_fn` only appends nodes. -/
theorem visitItemFnStep_extends (fuel : Nat) (f : FnAst) (acc : CfgBuilder) (stmt : Stmt) :
    builderExtends acc (visitItemFnStep fuel f acc stmt) := by
  cases stmt with
  | localS pat init => exact (visit_extends_all fuel).2.1 acc (.localS pat init)
  | exprS e => exact (visit_extends_all fuel).2.1 acc (.exprS e)
  | semi e =>
    cases e
    case macE name tokens =>
      rw [visitItemFnStep]
      dsimp only
      split
      · exact builderExtends_refl acc
      · split
        · exact addNode_extends acc _
        · split
          · exact graph_eq_extends rfl
          · split
            · exact addNode_extends acc _
            · exact addNode_extends acc _
    all_goals exact (visit_extends_all fuel).1 acc _

/-- C8 (amended).  The gate of `visit_item_fn` is purely top-level:
the builder processes a function iff one of its top-level
semicolon-terminated statements invokes `pre`, `post`, `invariant` or
`build_cfg` as a macro.  When the gate fails the builder is returned
unchanged (even if annotations occur nested deeper in the body); when
it holds, the Function node is appended at the old end of the node
list and the rest of the processing only appends nodes after it. -/
theorem visitItemFn_gating (fuel : Nat) (b : CfgBuilder) (f : FnAst) :
    (containsMacros f.stmts = false → visitItemFn fuel b f = b)
    ∧ (containsMacros f.stmts = true →
        ∃ l, (visitItemFn fuel b f).graph.nodes
          = b.graph.nodes ++ CfgNode.function f.name :: l) := by
  constructor
  · intro h
    unfold visitItemFn
    rw [h]
    rfl
  · intro h
    unfold visitItemFn
    rw [h]
    rw [if_neg (by simp : ¬((!true) = true))]
    dsimp only
    set B1 := { (b.addNode (CfgNode.function f.name)).1 with
        currentNode := some (b.addNode (CfgNode.function f.name)).2 } with hB1
    obtain ⟨l2, hl2⟩ :=
      foldl_extends_of_step (visitItemFnStep fuel f) (visitItemFnStep_extends fuel f) f.stmts B1
    obtain ⟨l3, hl3⟩ := addPostconditions_extends (f.stmts.foldl (visitItemFnStep fuel f) B1)
    refine ⟨l2 ++ l3, ?_⟩
    show ((f.stmts.foldl (visitItemFnStep fuel f) B1).addPostconditions).graph.nodes
      = b.graph.nodes ++ CfgNode.function f.name :: (l2 ++ l3)
    rw [hl3, hl2]
    have hB1n : B1.graph.nodes = b.graph.nodes ++ [CfgNode.function f.name] :=
      addNode_nodes b (CfgNode.function f.name)
    rw [hB1n]
    simp

/-- Witness for C8 (amended) at a concrete annotated function: the
gate passes and the Function node lands at index 0 of the empty
builder. -/
theorem visitItemFn_gating_witness :
    containsMacros [Stmt.semi (Expr.macE "pre" [Tok.ident "x"])] = true
    ∧ ∃ l, (visitItemFn 5 (CfgBuilder.new ⟨[]⟩)
          ⟨"g", [Stmt.semi (Expr.macE "pre" [Tok.ident "x"])]⟩).graph.nodes
        = (CfgBuilder.new ⟨[]⟩).graph.nodes ++ CfgNode.function "g" :: l :=
  ⟨rfl, (visitItemFn_gating 5 (CfgBuilder.new ⟨[]⟩)
    ⟨"g", [Stmt.semi (Expr.macE "pre" [Tok.ident "x"])]⟩).2 rfl⟩

/-- Counterexample to C8 as stated: a function whose body contains a
`pre!` annotation nested inside an `if` statement (so its source
textually contains the annotation) is nevertheless skipped by
`visit_item_fn`, because the gate only inspects top-level `Semi`
statements. -/
theorem visitItemFn_skips_nested_annotation :
    containsAnnotationAnywhere 9
      [Stmt.semi (Expr.ifE (Expr.litBool true)
        [Stmt.semi (Expr.macE "pre" [Tok.ident "x"])] none)] = true
    ∧ containsMacros
      [Stmt.semi (Expr.ifE (Expr.litBool true)
        [Stmt.semi (Expr.macE "pre" [Tok.ident "x"])] none)] = false
    ∧ visitItemFn 9 (CfgBuilder.new ⟨[]⟩)
        ⟨"f", [Stmt.semi (Expr.ifE (Expr.litBool true)
          [Stmt.semi (Expr.macE "pre" [Tok.ident "x"])] none)]⟩
      = CfgBuilder.new ⟨[]⟩ :=
  ⟨rfl, rfl, rfl⟩

end Secrust

namespace Secrust

/-! ## C2: the chaining of the pipeline's substitution walker -/

theorem exprToToks_ne_nil (e : Expr) : exprToToks e ≠ [] := by
  cases e
  case ifE c t els => cases els <;> simp [exprToToks]
  case retE oe => cases oe <;> simp [exprToToks]
  all_goals simp [exprToToks]

mutual
theorem substituteVariables_nil (e : Expr) : substituteVariables e [] = e := by
  cases e with
  | path s => rfl
  | unaryNot inner => rw [substituteVariables, substituteVariables_nil inner]
  | binary op l r => rw [substituteVariables, substituteVariables_nil l, substituteVariables_nil r]
  | call f args => rw [substituteVariables, substVarsList_nil args]
  | paren inner => rw [substituteVariables, substituteVariables_nil inner]
  | litInt n => rfl
  | litBool v => rfl
  | methodCall recv m args => rfl
  | macE name ts => rfl
  | assignE l r => rfl
  | assignOpE op l r => rfl
  | ifE c t els => rfl
  | blockE ss => rfl
  | whileE c body => rfl
  | retE oe => rfl
  | verbatim v => rfl
termination_by sizeOf e

theorem substVarsList_nil (es : List Expr) : substVarsList es [] = es := by
  cases es with
  | nil => rfl
  | cons e rest => rw [substVarsList, substituteVariables_nil e, substVarsList_nil rest]
termination_by sizeOf es
end

theorem chainBin_toks (op : BinOp) (e w : Expr) :
    exprToToks (chainBin op e w) = exprToToks e ++ .punct op.render :: exprToToks w := by
  cases w with
  | binary op2 a b =>
    rw [chainBin]
    by_cases hop : op2 = op
    · subst hop
      rw [if_pos rfl]
      simp only [exprToToks]
      rw [chainBin_toks op2 e a]
      simp [List.append_assoc]
    · rw [if_neg hop]
      simp [exprToToks, List.append_assoc]
  | path s => simp [chainBin, exprToToks, List.append_assoc]
  | litInt n => simp [chainBin, exprToToks, List.append_assoc]
  | litBool v => simp [chainBin, exprToToks, List.append_assoc]
  | unaryNot inner => simp [chainBin, exprToToks, List.append_assoc]
  | paren inner => simp [chainBin, exprToToks, List.append_assoc]
  | call f args => simp [chainBin, exprToToks, List.append_assoc]
  | methodCall recv m args => simp [chainBin, exprToToks, List.append_assoc]
  | macE name ts => simp [chainBin, exprToToks, List.append_assoc]
  | assignE l r => simp [chainBin, exprToToks, List.append_assoc]
  | assignOpE op2 l r => simp [chainBin, exprToToks, List.append_assoc]
  | ifE c t els => simp [chainBin, exprToToks, List.append_assoc]
  | blockE ss => simp [chainBin, exprToToks, List.append_assoc]
  | whileE c body => simp [chainBin, exprToToks, List.append_assoc]
  | retE oe => simp [chainBin, exprToToks, List.append_assoc]
  | verbatim v => simp [chainBin, exprToToks, List.append_assoc]
termination_by sizeOf w

theorem renderList_cons_ne (t : Tok) (ts : List Tok) (h : ts ≠ []) :
    Tok.renderList (t :: ts) = t.render ++ " " ++ Tok.renderList ts := by
  cases ts with
  | nil => exact absurd rfl h
  | cons a b => rfl

theorem renderList_append (ys : List Tok) (hy : ys ≠ []) :
    ∀ xs : List Tok, xs ≠ [] →
      Tok.renderList (xs ++ ys) = Tok.renderList xs ++ " " ++ Tok.renderList ys := by
  intro xs
  induction xs with
  | nil => intro hx; exact absurd rfl hx
  | cons t ts ih =>
    intro _
    cases ts with
    | nil =>
      cases ys with
      | nil => exact absurd rfl hy
      | cons y ys2 => rfl
    | cons t2 ts2 =>
      have h2 := ih (by simp)
      show Tok.render t ++ " " ++ Tok.renderList ((t2 :: ts2) ++ ys)
        = (Tok.render t ++ " " ++ Tok.renderList (t2 :: ts2)) ++ " " ++ Tok.renderList ys
      rw [h2]
      simp [String.append_assoc]

theorem interToks_ne_nil : ∀ (css : List (List Tok)), (∀ ts ∈ css, ts ≠ []) → css ≠ [] →
    interToks css ≠ [] := by
  intro css h hne
  match css with
  | [] => exact absurd rfl hne
  | [ts] => simpa [interToks] using h ts (by simp)
  | ts :: ts2 :: rest => simp [interToks]

theorem interToks_conjSep : ∀ (cs : List Expr),
    toksToString (interToks (cs.map exprToToks)) = conjSep (cs.map renderExpr)
  | [] => rfl
  | [c] => rfl
  | c :: c2 :: rest => by
    have hrec := interToks_conjSep (c2 :: rest)
    have h1 : exprToToks c ≠ [] := exprToToks_ne_nil c
    have h2 : interToks ((c2 :: rest).map exprToToks) ≠ [] := by
      refine interToks_ne_nil _ ?_ (by simp)
      intro ts hts
      simp only [List.mem_map] at hts
      obtain ⟨x, _, hx⟩ := hts
      rw [← hx]
      exact exprToToks_ne_nil x
    show Tok.renderList (exprToToks c ++ .punct "&&" :: interToks ((c2 :: rest).map exprToToks))
      = renderExpr c ++ " && " ++ conjSep ((c2 :: rest).map renderExpr)
    rw [renderList_append _ (by simp) (exprToToks c) h1]
    rw [renderList_cons_ne _ _ h2]
    have hrec2 : Tok.renderList (interToks ((c2 :: rest).map exprToToks))
        = conjSep ((c2 :: rest).map renderExpr) := hrec
    rw [hrec2]
    show (renderExpr c ++ " ") ++ (("&&" ++ " ") ++ conjSep ((c2 :: rest).map renderExpr))
      = (renderExpr c ++ " && ") ++ conjSep ((c2 :: rest).map renderExpr)
    rw [← String.append_assoc]
    have hlit : ((" " : String) ++ ("&&" ++ " ")) = " && " := rfl
    rw [String.append_assoc (renderExpr c) " ", hlit]

end Secrust

namespace Secrust

/-- The reverse fold of `apply_substitution` over a statement-free
path: the variable state stays empty, and the working condition is
exactly the `&&`-chain of the path's condition/annotation payloads in
path order (at the token level). -/
theorem substFold_path (g : Graph) :
    ∀ (path : List Nat), (∀ i ∈ path, (g.nodeAt i).isStatement = false) →
      ((path.reverse.foldl (substStep g) (none, [])).2 = []
       ∧ ((pathConds g path = []
            ∧ (path.reverse.foldl (substStep g) (none, [])).1 = none)
          ∨ (∃ w, (path.reverse.foldl (substStep g) (none, [])).1 = some w
              ∧ exprToToks w = interToks ((pathConds g path).map exprToToks)))) := by
  intro path
  induction path with
  | nil => intro _; exact ⟨rfl, .inl ⟨rfl, rfl⟩⟩
  | cons p1 rest ih =>
    intro hno
    have hrest := ih (fun i hi => hno i (List.mem_cons_of_mem _ hi))
    have hrev : (p1 :: rest).reverse.foldl (substStep g)
          ((none : Option Expr), ([] : List (String × Expr)))
        = substStep g (rest.reverse.foldl (substStep g) (none, [])) p1 := by
      rw [List.reverse_cons, List.foldl_append, List.foldl_cons, List.foldl_nil]
    rcases hprev : rest.reverse.foldl (substStep g)
        ((none : Option Expr), ([] : List (String × Expr))) with ⟨pw, pv⟩
    rw [hprev] at hrest hrev
    obtain ⟨hpv, hcase⟩ := hrest
    have hpv2 : pv = [] := hpv
    subst hpv2
    rw [hrev]
    have hp1 : (g.nodeAt p1).isStatement = false := hno p1 (List.mem_cons_self _ _)
    unfold substStep
    dsimp only
    cases hn : g.nodeAt p1 with
    | statement txt so =>
      rw [hn] at hp1
      simp [CfgNode.isStatement] at hp1
    | condition lab oe =>
      cases oe with
      | none =>
        have hpc : pathConds g (p1 :: rest) = pathConds g rest := by
          simp [pathConds, List.filterMap_cons, hn]
        refine ⟨rfl, ?_⟩
        rw [hpc]
        exact hcase
      | some ce =>
        have hpc : pathConds g (p1 :: rest) = ce.toSynExpr :: pathConds g rest := by
          simp [pathConds, List.filterMap_cons, hn]
        rcases hcase with ⟨hc0, hw0⟩ | ⟨w0, hw1, hw2⟩
        · have hpw : pw = none := hw0
          subst hpw
          refine ⟨rfl, .inr ⟨substituteVariables ce.toSynExpr [], rfl, ?_⟩⟩
          rw [hpc, substituteVariables_nil, hc0]
          simp [interToks]
        · have hpw : pw = some w0 := hw1
          subst hpw
          refine ⟨rfl, .inr ⟨chainBin .andB (substituteVariables ce.toSynExpr []) w0, rfl, ?_⟩⟩
          rw [hpc, substituteVariables_nil, chainBin_toks, hw2]
          cases hq : pathConds g rest with
          | nil =>
            rw [hq] at hw2
            simp [interToks] at hw2
            exact absurd hw2 (exprToToks_ne_nil w0)
          | cons q qs => rfl
    | postcondition txt oe =>
      cases oe with
      | none =>
        have hpc : pathConds g (p1 :: rest) = pathConds g rest := by
          simp [pathConds, List.filterMap_cons, hn]
        refine ⟨rfl, ?_⟩
        rw [hpc]
        exact hcase
      | some e0 =>
        have hpc : pathConds g (p1 :: rest) = e0 :: pathConds g rest := by
          simp [pathConds, List.filterMap_cons, hn]
        rcases hcase with ⟨hc0, hw0⟩ | ⟨w0, hw1, hw2⟩
        · have hpw : pw = none := hw0
          subst hpw
          refine ⟨rfl, .inr ⟨substituteVariables e0 [], rfl, ?_⟩⟩
          rw [hpc, substituteVariables_nil, hc0]
          simp [interToks]
        · have hpw : pw = some w0 := hw1
          subst hpw
          refine ⟨rfl, .inr ⟨chainBin .andB (substituteVariables e0 []) w0, rfl, ?_⟩⟩
          rw [hpc, substituteVariables_nil, chainBin_toks, hw2]
          cases hq : pathConds g rest with
          | nil =>
            rw [hq] at hw2
            simp [interToks] at hw2
            exact absurd hw2 (exprToToks_ne_nil w0)
          | cons q qs => rfl
    | invariant txt oe =>
      cases oe with
      | none =>
        have hpc : pathConds g (p1 :: rest) = pathConds g rest := by
          simp [pathConds, List.filterMap_cons, hn]
        refine ⟨rfl, ?_⟩
        rw [hpc]
        exact hcase
      | some e0 =>
        have hpc : pathConds g (p1 :: rest) = e0 :: pathConds g rest := by
          simp [pathConds, List.filterMap_cons, hn]
        rcases hcase with ⟨hc0, hw0⟩ | ⟨w0, hw1, hw2⟩
        · have hpw : pw = none := hw0
          subst hpw
          refine ⟨rfl, .inr ⟨substituteVariables e0 [], rfl, ?_⟩⟩
          rw [hpc, substituteVariables_nil, hc0]
          simp [interToks]
        · have hpw : pw = some w0 := hw1
          subst hpw
          refine ⟨rfl, .inr ⟨chainBin .andB (substituteVariables e0 []) w0, rfl, ?_⟩⟩
          rw [hpc, substituteVariables_nil, chainBin_toks, hw2]
          cases hq : pathConds g rest with
          | nil =>
            rw [hq] at hw2
            simp [interToks] at hw2
            exact absurd hw2 (exprToToks_ne_nil w0)
          | cons q qs => rfl
    | precondition txt oe =>
      cases oe with
      | none =>
        have hpc : pathConds g (p1 :: rest) = pathConds g rest := by
          simp [pathConds, List.filterMap_cons, hn]
        refine ⟨rfl, ?_⟩
        rw [hpc]
        exact hcase
      | some e0 =>
        have hpc : pathConds g (p1 :: rest) = e0 :: pathConds g rest := by
          simp [pathConds, List.filterMap_cons, hn]
        rcases hcase with ⟨hc0, hw0⟩ | ⟨w0, hw1, hw2⟩
        · have hpw : pw = none := hw0
          subst hpw
          refine ⟨rfl, .inr ⟨substituteVariables e0 [], rfl, ?_⟩⟩
          rw [hpc, substituteVariables_nil, hc0]
          simp [interToks]
        · have hpw : pw = some w0 := hw1
          subst hpw
          refine ⟨rfl, .inr ⟨chainBin .andB (substituteVariables e0 []) w0, rfl, ?_⟩⟩
          rw [hpc, substituteVariables_nil, chainBin_toks, hw2]
          cases hq : pathConds g rest with
          | nil =>
            rw [hq] at hw2
            simp [interToks] at hw2
            exact absurd hw2 (exprToToks_ne_nil w0)
          | cons q qs => rfl
    | function name =>
      have hpc : pathConds g (p1 :: rest) = pathConds g rest := by
        simp [pathConds, List.filterMap_cons, hn]
      refine ⟨rfl, ?_⟩
      rw [hpc]
      exact hcase
    | cutoff txt =>
      have hpc : pathConds g (p1 :: rest) = pathConds g rest := by
        simp [pathConds, List.filterMap_cons, hn]
      refine ⟨rfl, ?_⟩
      rw [hpc]
      exact hcase
    | ret txt =>
      have hpc : pathConds g (p1 :: rest) = pathConds g rest := by
        simp [pathConds, List.filterMap_cons, hn]
      refine ⟨rfl, ?_⟩
      rw [hpc]
      exact hcase
    | mergePoint =>
      have hpc : pathConds g (p1 :: rest) = pathConds g rest := by
        simp [pathConds, List.filterMap_cons, hn]
      refine ⟨rfl, ?_⟩
      rw [hpc]
      exact hcase

end Secrust

namespace Secrust

/-- C2 (amended).  The per-path formula of the downstream pipeline is
the one of `apply_substitution`, which chains the path's processed
conditions with `&&` (not with `>>` as `apply_wp_calculus` does): on a
statement-free path the formula is exactly the rendered conditions and
annotations in path order joined by `\" && \"`, and a path without any
condition contributes no formula. -/
theorem applySubstitution_conj (g : Graph) (path : List Nat)
    (hno : ∀ i ∈ path, (g.nodeAt i).isStatement = false) :
    applySubstitution g [path]
      = match pathConds g path with
        | [] => []
        | _ => [conjSep ((pathConds g path).map renderExpr)] := by
  unfold applySubstitution
  rw [List.foldl_cons, List.foldl_nil]
  obtain ⟨hst, hcase⟩ := substFold_path g path hno
  rcases hcase with ⟨hc, hnone⟩ | ⟨w, hsome, htoks⟩
  · rw [hnone, hc]
  · rw [hsome]
    cases hq : pathConds g path with
    | nil =>
      rw [hq] at htoks
      simp [interToks] at htoks
      exact absurd htoks (exprToToks_ne_nil w)
    | cons q qs =>
      rw [hq] at htoks
      have hr : renderExpr w = conjSep ((q :: qs).map renderExpr) := by
        show toksToString (exprToToks w) = _
        rw [htoks]
        exact interToks_conjSep _
      simp [hr]

/-- Witness for C2 (amended) on a concrete two-node path. -/
theorem applySubstitution_conj_witness :
    applySubstitution
        ⟨[.precondition "n >= 0" (some (.macE "pre" [.ident "n", .punct ">=", .lit "0"])),
          .postcondition "n >= 0" (some (.macE "post" [.ident "n", .punct ">=", .lit "0"]))],
         [⟨0, 1, ""⟩]⟩ [[0, 1]]
      = ["pre ! (n >= 0) && post ! (n >= 0)"] :=
  (applySubstitution_conj
    ⟨[.precondition "n >= 0" (some (.macE "pre" [.ident "n", .punct ">=", .lit "0"])),
      .postcondition "n >= 0" (some (.macE "post" [.ident "n", .punct ">=", .lit "0"]))],
     [⟨0, 1, ""⟩]⟩ [0, 1] (by decide)).trans (by rfl)

end Secrust

namespace Secrust

/-- Counterexample to C2 as stated: on a one-function file with a
`pre!` and a `post!` annotation, the end-to-end pipeline emits the
`&&`-chained formula of `apply_substitution`, which differs from the
`>>`-chained formula `apply_wp_calculus` produces on the identical
extracted path. -/
theorem runVerification_conj_counterexample :
    runVerificationFormulas 20
        [⟨"f", [.semi (.macE "pre" [.ident "n", .punct ">=", .lit "0"]),
                .semi (.macE "post" [.ident "n", .punct ">=", .lit "0"])]⟩]
      = ["pre ! (n >= 0) && post ! (n >= 0)"]
    ∧ applyWpCalculus
        (runVerificationPaths 20
          [⟨"f", [.semi (.macE "pre" [.ident "n", .punct ">=", .lit "0"]),
                  .semi (.macE "post" [.ident "n", .punct ">=", .lit "0"])]⟩]).1
        (runVerificationPaths 20
          [⟨"f", [.semi (.macE "pre" [.ident "n", .punct ">=", .lit "0"]),
                  .semi (.macE "post" [.ident "n", .punct ">=", .lit "0"])]⟩]).2
      = ["pre ! (n >= 0) >> post ! (n >= 0)"]
    ∧ runVerificationFormulas 20
        [⟨"f", [.semi (.macE "pre" [.ident "n", .punct ">=", .lit "0"]),
                .semi (.macE "post" [.ident "n", .punct ">=", .lit "0"])]⟩]
      ≠ applyWpCalculus
        (runVerificationPaths 20
          [⟨"f", [.semi (.macE "pre" [.ident "n", .punct ">=", .lit "0"]),
                  .semi (.macE "post" [.ident "n", .punct ">=", .lit "0"])]⟩]).1
        (runVerificationPaths 20
          [⟨"f", [.semi (.macE "pre" [.ident "n", .punct ">=", .lit "0"]),
                  .semi (.macE "post" [.ident "n", .punct ">=", .lit "0"])]⟩]).2 := by
  have h1 : runVerificationFormulas 20
        [⟨"f", [.semi (.macE "pre" [.ident "n", .punct ">=", .lit "0"]),
                .semi (.macE "post" [.ident "n", .punct ">=", .lit "0"])]⟩]
      = ["pre ! (n >= 0) && post ! (n >= 0)"] := by
    simp +decide [runVerificationFormulas, visitFile, visitItemFn, visitItemFnStep,
      containsMacros, relevantMacroNames, formatMacroArgs, CfgBuilder.new,
      CfgBuilder.addNode, CfgBuilder.addPostconditions, Graph.addEdge,
      Graph.postProcess, Graph.mergeWorklist, cleanupLabels, postLoop,
      Graph.nodeAt, Graph.outEdges, Graph.outdeg, CfgNode.isMerge,
      generateSimplePaths, Graph.getConditionNodes, CfgNode.isCut,
      findPaths, findPathsChildren, Graph.edgesConnecting,
      applySubstitution, substStep, parseAssignmentSubst, parseAssignmentSubstStmt,
      substituteVariables, chainBin, renderExpr, exprToToks, toksToString,
      Tok.render, Tok.renderList, BinOp.render, List.range, List.range.loop,
      List.filter, cleanUpFormatting, cleanupGo]
  have h2 : applyWpCalculus
        (runVerificationPaths 20
          [⟨"f", [.semi (.macE "pre" [.ident "n", .punct ">=", .lit "0"]),
                  .semi (.macE "post" [.ident "n", .punct ">=", .lit "0"])]⟩]).1
        (runVerificationPaths 20
          [⟨"f", [.semi (.macE "pre" [.ident "n", .punct ">=", .lit "0"]),
                  .semi (.macE "post" [.ident "n", .punct ">=", .lit "0"])]⟩]).2
      = ["pre ! (n >= 0) >> post ! (n >= 0)"] := by
    simp +decide [runVerificationPaths, visitFile, visitItemFn, visitItemFnStep,
      containsMacros, relevantMacroNames, formatMacroArgs, CfgBuilder.new,
      CfgBuilder.addNode, CfgBuilder.addPostconditions, Graph.addEdge,
      Graph.postProcess, Graph.mergeWorklist, cleanupLabels, postLoop,
      Graph.nodeAt, Graph.outEdges, Graph.outdeg, CfgNode.isMerge,
      generateSimplePaths, Graph.getConditionNodes, CfgNode.isCut,
      findPaths, findPathsChildren, Graph.edgesConnecting,
      applyWpCalculus, wpStep, parseAssignment, parseAssignmentStmt, isFalseBranch,
      recursiveSubstitution, negateCondition, wrapWithParens, ConditionalExpr.toSynExpr,
      chainBin, renderExpr, exprToToks, toksToString,
      Tok.render, Tok.renderList, BinOp.render, List.range, List.range.loop,
      List.filter, cleanUpFormatting, cleanupGo]
  exact ⟨h1, h2, by rw [h1, h2]; decide⟩

end Secrust

namespace Secrust

/-! ## C1: the chaining of the WP calculator -/

theorem interToksShr_ne_nil : ∀ (css : List (List Tok)), (∀ ts ∈ css, ts ≠ []) → css ≠ [] →
    interToksShr css ≠ [] := by
  intro css h hne
  match css with
  | [] => exact absurd rfl hne
  | [ts] => simpa [interToksShr] using h ts (by simp)
  | ts :: ts2 :: rest => simp [interToksShr]

theorem interToksShr_shrSep : ∀ (cs : List Expr),
    toksToString (interToksShr (cs.map exprToToks)) = shrSep (cs.map renderExpr)
  | [] => rfl
  | [c] => rfl
  | c :: c2 :: rest => by
    have hrec := interToksShr_shrSep (c2 :: rest)
    have h1 : exprToToks c ≠ [] := exprToToks_ne_nil c
    have h2 : interToksShr ((c2 :: rest).map exprToToks) ≠ [] := by
      refine interToksShr_ne_nil _ ?_ (by simp)
      intro ts hts
      simp only [List.mem_map] at hts
      obtain ⟨x, _, hx⟩ := hts
      rw [← hx]
      exact exprToToks_ne_nil x
    show Tok.renderList (exprToToks c ++ .punct ">>" :: interToksShr ((c2 :: rest).map exprToToks))
      = renderExpr c ++ " >> " ++ shrSep ((c2 :: rest).map renderExpr)
    rw [renderList_append _ (by simp) (exprToToks c) h1]
    rw [renderList_cons_ne _ _ h2]
    have hrec2 : Tok.renderList (interToksShr ((c2 :: rest).map exprToToks))
        = shrSep ((c2 :: rest).map renderExpr) := hrec
    rw [hrec2]
    show (renderExpr c ++ " ") ++ ((">>" ++ " ") ++ shrSep ((c2 :: rest).map renderExpr))
      = (renderExpr c ++ " >> ") ++ shrSep ((c2 :: rest).map renderExpr)
    rw [← String.append_assoc]
    have hlit : ((" " : String) ++ (">>" ++ " ")) = " >> " := rfl
    rw [String.append_assoc (renderExpr c) " ", hlit]

/-- The reverse fold of `apply_wp_calculus` over a statement-free node
list: the working condition is exactly the `>>`-chain of the processed
conditions in order (at the token level). -/
theorem wpFold_path (g : Graph) (path0 : List Nat) :
    ∀ (nodes : List Nat), (∀ i ∈ nodes, (g.nodeAt i).isStatement = false) →
      ((pathCondsWp g path0 nodes = []
         ∧ nodes.reverse.foldl (wpStep g path0) none = none)
       ∨ (∃ w, nodes.reverse.foldl (wpStep g path0) none = some w
           ∧ exprToToks w = interToksShr ((pathCondsWp g path0 nodes).map exprToToks))) := by
  intro nodes
  induction nodes with
  | nil => intro _; exact .inl ⟨rfl, rfl⟩
  | cons p1 rest ih =>
    intro hno
    have hrest := ih (fun i hi => hno i (List.mem_cons_of_mem _ hi))
    have hrev : (p1 :: rest).reverse.foldl (wpStep g path0) none
        = wpStep g path0 (rest.reverse.foldl (wpStep g path0) none) p1 := by
      rw [List.reverse_cons, List.foldl_append, List.foldl_cons, List.foldl_nil]
    rw [hrev]
    have hp1 : (g.nodeAt p1).isStatement = false := hno p1 (List.mem_cons_self _ _)
    rw [wpStep]
    cases hn : g.nodeAt p1 with
    | statement txt so =>
      rw [hn] at hp1
      simp [CfgNode.isStatement] at hp1
    | condition lab oe =>
      cases oe with
      | none =>
        have hpc : pathCondsWp g path0 (p1 :: rest) = pathCondsWp g path0 rest := by
          simp [pathCondsWp, List.filterMap_cons, hn]
        rw [hpc]
        exact hrest
      | some ce =>
        cases ce with
        | ifC e0 =>
          have hpc : pathCondsWp g path0 (p1 :: rest)
              = ((if isFalseBranch g path0 p1 then ConditionalExpr.ifC (negateCondition e0)
                  else ConditionalExpr.ifC (wrapWithParens e0)).toSynExpr)
                :: pathCondsWp g path0 rest := by
            simp [pathCondsWp, List.filterMap_cons, hn]
          rcases hrest with ⟨hc0, hfold⟩ | ⟨w0, hfold, hw2⟩
          · rw [hfold, hpc, hc0]
            exact .inr ⟨_, rfl, by simp [interToksShr]⟩
          · rw [hfold, hpc]
            refine .inr ⟨_, rfl, ?_⟩
            rw [chainBin_toks, hw2]
            cases hq : pathCondsWp g path0 rest with
            | nil =>
              rw [hq] at hw2
              simp [interToksShr] at hw2
              exact absurd hw2 (exprToToks_ne_nil w0)
            | cons q qs => rfl
        | whileC e0 =>
          have hpc : pathCondsWp g path0 (p1 :: rest)
              = ((if isFalseBranch g path0 p1 then ConditionalExpr.whileC (negateCondition e0)
                  else ConditionalExpr.whileC (wrapWithParens e0)).toSynExpr)
                :: pathCondsWp g path0 rest := by
            simp [pathCondsWp, List.filterMap_cons, hn]
          rcases hrest with ⟨hc0, hfold⟩ | ⟨w0, hfold, hw2⟩
          · rw [hfold, hpc, hc0]
            exact .inr ⟨_, rfl, by simp [interToksShr]⟩
          · rw [hfold, hpc]
            refine .inr ⟨_, rfl, ?_⟩
            rw [chainBin_toks, hw2]
            cases hq : pathCondsWp g path0 rest with
            | nil =>
              rw [hq] at hw2
              simp [interToksShr] at hw2
              exact absurd hw2 (exprToToks_ne_nil w0)
            | cons q qs => rfl
    | postcondition txt oe =>
      cases oe with
      | none =>
        have hpc : pathCondsWp g path0 (p1 :: rest) = pathCondsWp g path0 rest := by
          simp [pathCondsWp, List.filterMap_cons, hn]
        rw [hpc]
        exact hrest
      | some e0 =>
        have hpc : pathCondsWp g path0 (p1 :: rest) = e0 :: pathCondsWp g path0 rest := by
          simp [pathCondsWp, List.filterMap_cons, hn]
        rcases hrest with ⟨hc0, hfold⟩ | ⟨w0, hfold, hw2⟩
        · rw [hfold, hpc, hc0]
          exact .inr ⟨_, rfl, by simp [interToksShr]⟩
        · rw [hfold, hpc]
          refine .inr ⟨_, rfl, ?_⟩
          rw [chainBin_toks, hw2]
          cases hq : pathCondsWp g path0 rest with
          | nil =>
            rw [hq] at hw2
            simp [interToksShr] at hw2
            exact absurd hw2 (exprToToks_ne_nil w0)
          | cons q qs => rfl
    | invariant txt oe =>
      cases oe with
      | none =>
        have hpc : pathCondsWp g path0 (p1 :: rest) = pathCondsWp g path0 rest := by
          simp [pathCondsWp, List.filterMap_cons, hn]
        rw [hpc]
        exact hrest
      | some e0 =>
        have hpc : pathCondsWp g path0 (p1 :: rest) = e0 :: pathCondsWp g path0 rest := by
          simp [pathCondsWp, List.filterMap_cons, hn]
        rcases hrest with ⟨hc0, hfold⟩ | ⟨w0, hfold, hw2⟩
        · rw [hfold, hpc, hc0]
          exact .inr ⟨_, rfl, by simp [interToksShr]⟩
        · rw [hfold, hpc]
          refine .inr ⟨_, rfl, ?_⟩
          rw [chainBin_toks, hw2]
          cases hq : pathCondsWp g path0 rest with
          | nil =>
            rw [hq] at hw2
            simp [interToksShr] at hw2
            exact absurd hw2 (exprToToks_ne_nil w0)
          | cons q qs => rfl
    | precondition txt oe =>
      cases oe with
      | none =>
        have hpc : pathCondsWp g path0 (p1 :: rest) = pathCondsWp g path0 rest := by
          simp [pathCondsWp, List.filterMap_cons, hn]
        rw [hpc]
        exact hrest
      | some e0 =>
        have hpc : pathCondsWp g path0 (p1 :: rest) = e0 :: pathCondsWp g path0 rest := by
          simp [pathCondsWp, List.filterMap_cons, hn]
        rcases hrest with ⟨hc0, hfold⟩ | ⟨w0, hfold, hw2⟩
        · rw [hfold, hpc, hc0]
          exact .inr ⟨_, rfl, by simp [interToksShr]⟩
        · rw [hfold, hpc]
          refine .inr ⟨_, rfl, ?_⟩
          rw [chainBin_toks, hw2]
          cases hq : pathCondsWp g path0 rest with
          | nil =>
            rw [hq] at hw2
            simp [interToksShr] at hw2
            exact absurd hw2 (exprToToks_ne_nil w0)
          | cons q qs => rfl
    | function name =>
      have hpc : pathCondsWp g path0 (p1 :: rest) = pathCondsWp g path0 rest := by
        simp [pathCondsWp, List.filterMap_cons, hn]
      rw [hpc]
      exact hrest
    | cutoff txt =>
      have hpc : pathCondsWp g path0 (p1 :: rest) = pathCondsWp g path0 rest := by
        simp [pathCondsWp, List.filterMap_cons, hn]
      rw [hpc]
      exact hrest
    | ret txt =>
      have hpc : pathCondsWp g path0 (p1 :: rest) = pathCondsWp g path0 rest := by
        simp [pathCondsWp, List.filterMap_cons, hn]
      rw [hpc]
      exact hrest
    | mergePoint =>
      have hpc : pathCondsWp g path0 (p1 :: rest) = pathCondsWp g path0 rest := by
        simp [pathCondsWp, List.filterMap_cons, hn]
      rw [hpc]
      exact hrest

end Secrust

namespace Secrust

/-- C1 (amended).  The WP calculator walks the path last-to-first; on
a statement-free path the resulting formula is exactly the processed
conditions in path order joined by `\" >> \"` (negated `!(c)` towards a
`\"false\"` edge, parenthesised `(c)` otherwise, annotation expressions
unchanged), and a path with no condition contributes no formula.
Statement nodes do *not* leave the accumulator unchanged: a parseable
assignment substitutes its right-hand side into the accumulated
condition via `recursive_substitution`. -/
theorem applyWpCalculus_shr (g : Graph) (path : List Nat) :
    ((∀ i ∈ path, (g.nodeAt i).isStatement = false) →
      applyWpCalculus g [path]
        = match pathCondsWp g path path with
          | [] => []
          | _ => [shrSep ((pathCondsWp g path path).map renderExpr)])
    ∧ (∀ (w : Expr) (i : Nat) (txt : String) (st : Stmt) (var : String) (e : Expr),
        g.nodeAt i = .statement txt (some st) →
        parseAssignmentStmt st = some (var, e) →
        wpStep g path (some w) i = some (recursiveSubstitution w var e)) := by
  constructor
  · intro hno
    unfold applyWpCalculus
    rw [List.foldl_cons, List.foldl_nil]
    rcases wpFold_path g path path hno with ⟨hc, hnone⟩ | ⟨w, hsome, htoks⟩
    · rw [hnone, hc]
    · rw [hsome]
      cases hq : pathCondsWp g path path with
      | nil =>
        rw [hq] at htoks
        simp [interToksShr] at htoks
        exact absurd htoks (exprToToks_ne_nil w)
      | cons q qs =>
        rw [hq] at htoks
        have hr : renderExpr w = shrSep ((q :: qs).map renderExpr) := by
          show toksToString (exprToToks w) = _
          rw [htoks]
          exact interToksShr_shrSep _
        simp [hr]
  · intro w i txt st var e h1 h2
    rw [wpStep, h1]
    show (match parseAssignment (some st) with
          | some (var, e) =>
            match (some w : Option Expr) with
            | some cond => some (recursiveSubstitution cond var e)
            | none => none
          | none => (some w : Option Expr)) = some (recursiveSubstitution w var e)
    rw [show parseAssignment (some st) = some (var, e) from h2]

/-- Witness for C1 (amended) on a concrete condition-annotation path:
a true-edge condition is parenthesised and chained with `>>`. -/
theorem applyWpCalculus_shr_witness :
    applyWpCalculus
        ⟨[.condition "assume: x > 0" (some (.ifC (.binary .gt (.path "x") (.litInt 0)))),
          .postcondition "q" (some (.macE "post" [.ident "q"]))],
         [⟨0, 1, "true"⟩]⟩ [[0, 1]]
      = ["(x > 0) >> post ! (q)"] :=
  ((applyWpCalculus_shr
    ⟨[.condition "assume: x > 0" (some (.ifC (.binary .gt (.path "x") (.litInt 0)))),
      .postcondition "q" (some (.macE "post" [.ident "q"]))],
     [⟨0, 1, "true"⟩]⟩ [0, 1]).1 (by decide)).trans (by rfl)

/-- Counterexample to C1 as stated: a Statement node does not leave
the accumulator unchanged.  On the path `[x = 2 ; , post!(x == 2)]`
the WP calculator substitutes `(2)` for `x` in the accumulated
condition, while the claim-side calculator (Statement nodes inert)
keeps `x`. -/
theorem wpCalculus_substitutes_statements :
    applyWpCalculus
        ⟨[.statement "x = 2 ;" (some (.semi (.assignE (.path "x") (.litInt 2)))),
          .postcondition "x == 2" (some (.macE "post" [.ident "x", .punct "==", .lit "2"]))],
         [⟨0, 1, ""⟩]⟩ [[0, 1]]
      = ["post ! ((2) == 2)"]
    ∧ applyWpCalculusSpec
        ⟨[.statement "x = 2 ;" (some (.semi (.assignE (.path "x") (.litInt 2)))),
          .postcondition "x == 2" (some (.macE "post" [.ident "x", .punct "==", .lit "2"]))],
         [⟨0, 1, ""⟩]⟩ [[0, 1]]
      = ["post ! (x == 2)"]
    ∧ applyWpCalculus
        ⟨[.statement "x = 2 ;" (some (.semi (.assignE (.path "x") (.litInt 2)))),
          .postcondition "x == 2" (some (.macE "post" [.ident "x", .punct "==", .lit "2"]))],
         [⟨0, 1, ""⟩]⟩ [[0, 1]]
      ≠ applyWpCalculusSpec
        ⟨[.statement "x = 2 ;" (some (.semi (.assignE (.path "x") (.litInt 2)))),
          .postcondition "x == 2" (some (.macE "post" [.ident "x", .punct "==", .lit "2"]))],
         [⟨0, 1, ""⟩]⟩ [[0, 1]] := by
  have h1 : applyWpCalculus
        ⟨[.statement "x = 2 ;" (some (.semi (.assignE (.path "x") (.litInt 2)))),
          .postcondition "x == 2" (some (.macE "post" [.ident "x", .punct "==", .lit "2"]))],
         [⟨0, 1, ""⟩]⟩ [[0, 1]]
      = ["post ! ((2) == 2)"] := by
    simp +decide [applyWpCalculus, wpStep, parseAssignment, parseAssignmentStmt,
      Graph.nodeAt, isFalseBranch, Graph.edgesConnecting, recursiveSubstitution,
      substToks, substTokOne, exprToToks, renderExpr, toksToString,
      Tok.render, Tok.renderList, List.filter]
  have h2 : applyWpCalculusSpec
        ⟨[.statement "x = 2 ;" (some (.semi (.assignE (.path "x") (.litInt 2)))),
          .postcondition "x == 2" (some (.macE "post" [.ident "x", .punct "==", .lit "2"]))],
         [⟨0, 1, ""⟩]⟩ [[0, 1]]
      = ["post ! (x == 2)"] := rfl
  exact ⟨h1, h2, by rw [h1, h2]; decide⟩

end Secrust

namespace Secrust

/-- C6 (amended).  The statement rule of the reverse WP walk: a
Statement node parsing as `x = e;`, as `x op= e;`, or as `let x = e;`
with an identifier pattern substitutes for `x` throughout the
accumulator via `recursive_substitution`.  A compound assignment keeps
its compound operator (`x += 1` substitutes `(x += 1)`, not
`(x + 1)`).  The substitution parenthesises the replacement once at
the top level — a macro accumulator's identifier tokens equal to `x`
become the token stream of `(e)` — but descending one level of the
expression tree wraps the replacement in one further layer of
parentheses. -/
theorem wpStep_statement_subst (g : Graph) (path : List Nat) (i : Nat) (txt : String)
    (x : String) (r : Expr) (w : Expr) :
    (g.nodeAt i = .statement txt (some (.semi (.assignE (.path x) r))) →
      wpStep g path (some w) i = some (recursiveSubstitution w x r))
    ∧ (∀ op, g.nodeAt i = .statement txt (some (.semi (.assignOpE op (.path x) r))) →
      wpStep g path (some w) i = some (recursiveSubstitution w x (.binary op (.path x) r)))
    ∧ (∀ m, g.nodeAt i = .statement txt (some (.localS (.identP x m) (some r))) →
      wpStep g path (some w) i = some (recursiveSubstitution w x r))
    ∧ (∀ name toks e0, recursiveSubstitution (.macE name toks) x e0
        = .macE name (substToks x (exprToToks (.paren e0)) toks))
    ∧ (∀ op2 l r2 e0, recursiveSubstitution (.binary op2 l r2) x e0
        = .binary op2 (recursiveSubstitution l x (.paren e0)) (recursiveSubstitution r2 x (.paren e0)))
    ∧ (∀ repl t, substTokOne x repl (.ident t) = if t == x then repl else [.ident t]) := by
  refine ⟨?_, ?_, ?_, ?_, ?_, ?_⟩
  · intro h
    rw [wpStep, h]
    rfl
  · intro op h
    rw [wpStep, h]
    rfl
  · intro m h
    rw [wpStep, h]
    rfl
  · intro name toks e0
    rw [recursiveSubstitution]
  · intro op2 l r2 e0
    rw [recursiveSubstitution]
  · intro repl t
    rfl

/-- Witness for C6 (amended): the claim's own example.  `let x = 2;`
preceding `invariant!(x + 1 == 3)` substitutes the parenthesised `(2)`
inside the macro token stream; the formula renders as
`invariant ! ((2) + 1 == 3)`. -/
theorem wpStep_statement_subst_witness :
    wpStep
        ⟨[.statement "let x = 2 ;" (some (.localS (.identP "x" false) (some (.litInt 2)))),
          .invariant "x + 1 == 3"
            (some (.macE "invariant" [.ident "x", .punct "+", .lit "1", .punct "==", .lit "3"]))],
         [⟨0, 1, ""⟩]⟩ [0, 1]
        (some (.macE "invariant" [.ident "x", .punct "+", .lit "1", .punct "==", .lit "3"])) 0
      = some (.macE "invariant"
          [.group .paren [.lit "2"], .punct "+", .lit "1", .punct "==", .lit "3"])
    ∧ renderExpr (.macE "invariant"
          [.group .paren [.lit "2"], .punct "+", .lit "1", .punct "==", .lit "3"])
      = "invariant ! ((2) + 1 == 3)" := by
  constructor
  · have h := (wpStep_statement_subst
      ⟨[.statement "let x = 2 ;" (some (.localS (.identP "x" false) (some (.litInt 2)))),
        .invariant "x + 1 == 3"
          (some (.macE "invariant" [.ident "x", .punct "+", .lit "1", .punct "==", .lit "3"]))],
       [⟨0, 1, ""⟩]⟩ [0, 1] 0 "let x = 2 ;" "x" (.litInt 2)
      (.macE "invariant" [.ident "x", .punct "+", .lit "1", .punct "==", .lit "3"])).2.2.1
      false rfl
    rw [h]
    simp +decide [recursiveSubstitution, substToks, substTokOne, exprToToks]
  · rfl

/-- Counterexample to C6 as stated: a compound assignment `x += 1;` is
not treated as `x = x + 1` — `syn` keeps the compound operator in the
rebuilt right-hand side, so the substituted replacement renders as
`(x += 1)`, and the produced formula differs from the claim's
predicted `invariant ! ((x + 1) == 3)`. -/
theorem wpCalculus_compound_keeps_op :
    applyWpCalculus
        ⟨[.statement "x += 1 ;" (some (.semi (.assignOpE .addEq (.path "x") (.litInt 1)))),
          .invariant "x == 3" (some (.macE "invariant" [.ident "x", .punct "==", .lit "3"]))],
         [⟨0, 1, ""⟩]⟩ [[0, 1]]
      = ["invariant ! ((x += 1) == 3)"]
    ∧ applyWpCalculus
        ⟨[.statement "x += 1 ;" (some (.semi (.assignOpE .addEq (.path "x") (.litInt 1)))),
          .invariant "x == 3" (some (.macE "invariant" [.ident "x", .punct "==", .lit "3"]))],
         [⟨0, 1, ""⟩]⟩ [[0, 1]]
      ≠ ["invariant ! ((x + 1) == 3)"] := by
  have h1 : applyWpCalculus
        ⟨[.statement "x += 1 ;" (some (.semi (.assignOpE .addEq (.path "x") (.litInt 1)))),
          .invariant "x == 3" (some (.macE "invariant" [.ident "x", .punct "==", .lit "3"]))],
         [⟨0, 1, ""⟩]⟩ [[0, 1]]
      = ["invariant ! ((x += 1) == 3)"] := by
    simp +decide [applyWpCalculus, wpStep, parseAssignment, parseAssignmentStmt,
      Graph.nodeAt, isFalseBranch, Graph.edgesConnecting, recursiveSubstitution,
      substToks, substTokOne, exprToToks, renderExpr, toksToString,
      Tok.render, Tok.renderList, BinOp.render, List.filter]
  exact ⟨h1, by rw [h1]; decide⟩

end Secrust

namespace Secrust

/-! ## C7: merge-point post-processing leaves no half-spliced merge -/

theorem countP_split {α : Type} (l : List α) (p q : α → Bool) :
    l.countP p = l.countP (fun a => p a && q a) + l.countP (fun a => p a && !(q a)) := by
  induction l with
  | nil => rfl
  | cons a tl ih =>
    simp only [List.countP_cons]
    cases hp : p a <;> cases hq : q a <;> simp [hp, hq] <;> omega

theorem countP_congr_mem {α : Type} (l : List α) (p q : α → Bool)
    (h : ∀ a ∈ l, p a = q a) : l.countP p = l.countP q := by
  induction l with
  | nil => rfl
  | cons a tl ih =>
    rw [List.countP_cons, List.countP_cons, h a (by simp),
      ih (fun b hb => h b (by simp [hb]))]

theorem countP_mono_mem {α : Type} (l : List α) (p q : α → Bool)
    (h : ∀ a ∈ l, p a = true → q a = true) : l.countP p ≤ l.countP q := by
  induction l with
  | nil => exact Nat.le_refl _
  | cons a tl ih =>
    rw [List.countP_cons, List.countP_cons]
    have hrec := ih (fun b hb => h b (by simp [hb]))
    cases hp : p a
    · simp only [hp, Bool.false_eq_true, if_false]
      omega
    · rw [h a (by simp) hp]
      simp only [if_pos rfl]
      omega

theorem foldl_addEdge_edges (t : Nat) (L : List Edge) (g : Graph) :
    (L.foldl (fun acc ie => acc.addEdge ie.src t ie.lab) g).edges
      = (L.reverse.map (fun ie => (⟨ie.src, t, ie.lab⟩ : Edge))) ++ g.edges := by
  induction L generalizing g with
  | nil => simp
  | cons e rest ih =>
    rw [List.foldl_cons, ih]
    simp [Graph.addEdge]

theorem outdeg_eq_countP (g : Graph) (j : Nat) :
    g.outdeg j = g.edges.countP (fun e => e.src == j) := by
  rw [Graph.outdeg, Graph.outEdges, List.countP_eq_length_filter]

theorem spliceGraph_len (g : Graph) (m t : Nat) :
    (spliceGraph g m t).nodes.length = g.nodes.length - 1 := by
  unfold spliceGraph
  rw [removeNode_nodes_length, foldl_addEdge_nodes]

theorem removeNode_nodeAt (g : Graph) (m j : Nat) (hj : j < g.nodes.length - 1) :
    (g.removeNode m).nodeAt j
      = g.nodeAt (if j = m then g.nodes.length - 1 else j) := by
  simp only [Graph.removeNode]
  by_cases hm : m = g.nodes.length - 1
  · rw [if_pos hm, if_neg (by omega : ¬ j = m)]
    simp only [Graph.nodeAt, List.getD, List.get?_eq_getElem?]
    rw [List.getElem?_dropLast, if_pos hj]
  · rw [if_neg hm]
    simp only [Graph.nodeAt, List.getD, List.get?_eq_getElem?]
    by_cases hjm : j = m
    · subst hjm
      rw [if_pos rfl, List.getElem?_dropLast, List.length_set, if_pos hj,
        List.getElem?_set_self', List.getElem?_eq_getElem (by omega : j < g.nodes.length)]
      simp [List.getD]
    · rw [if_neg hjm, List.getElem?_dropLast, List.length_set, if_pos hj,
        List.getElem?_set_ne (fun h => hjm h.symm)]

theorem spliceGraph_nodeAt (g : Graph) (m t j : Nat) (hj : j < g.nodes.length - 1) :
    (spliceGraph g m t).nodeAt j
      = g.nodeAt (if j = m then g.nodes.length - 1 else j) := by
  unfold spliceGraph
  have hn := foldl_addEdge_nodes g (g.inEdges m) t
  rw [removeNode_nodeAt _ _ _ (by rw [hn]; exact hj)]
  simp only [Graph.nodeAt, hn]

theorem removeNode_outdeg_le (g : Graph) (m j : Nat) (hj : j < g.nodes.length - 1) :
    (g.removeNode m).outdeg j
      ≤ g.edges.countP (fun e =>
          (e.src == (if j = m then g.nodes.length - 1 else j)) && !(e.dst == m)) := by
  simp only [Graph.removeNode]
  by_cases hm : m = g.nodes.length - 1
  · rw [if_pos hm]
    simp only [Graph.outdeg, Graph.outEdges]
    rw [← List.countP_eq_length_filter, List.countP_filter]
    apply countP_mono_mem
    intro e _ h
    simp only [Bool.and_eq_true, beq_iff_eq, Bool.not_eq_true', beq_eq_false_iff_ne] at h ⊢
    obtain ⟨h1, h2, h3⟩ := h
    rw [if_neg (by omega : ¬ j = m)]
    exact ⟨h1, h3⟩
  · rw [if_neg hm]
    simp only [Graph.outdeg, Graph.outEdges]
    rw [← List.countP_eq_length_filter, List.countP_map, List.countP_filter]
    apply countP_mono_mem
    intro e _ h
    simp only [Function.comp, Bool.and_eq_true, beq_iff_eq, Bool.not_eq_true',
      beq_eq_false_iff_ne] at h ⊢
    obtain ⟨h1, h2, h3⟩ := h
    refine ⟨?_, h3⟩
    by_cases hsl : e.src = g.nodes.length - 1
    · rw [if_pos hsl] at h1
      rw [if_pos h1.symm]
      exact hsl
    · rw [if_neg hsl] at h1
      rw [if_neg (fun hh => h2 (h1.trans hh))]
      exact h1

theorem spliceGraph_outdeg_le (g : Graph) (m t j : Nat) (hj : j < g.nodes.length - 1) :
    (spliceGraph g m t).outdeg j
      ≤ g.outdeg (if j = m then g.nodes.length - 1 else j) := by
  unfold spliceGraph
  have hn := foldl_addEdge_nodes g (g.inEdges m) t
  have hedges := foldl_addEdge_edges t (g.inEdges m) g
  have haux := removeNode_outdeg_le
    ((g.inEdges m).foldl (fun acc ie => acc.addEdge ie.src t ie.lab) g) m j
    (by rw [hn]; exact hj)
  rw [hn, hedges] at haux
  rw [List.countP_append] at haux
  have hadded : ((g.inEdges m).reverse.map
        (fun ie => (⟨ie.src, t, ie.lab⟩ : Edge))).countP
        (fun e => (e.src == (if j = m then g.nodes.length - 1 else j)) && !(e.dst == m))
      ≤ g.edges.countP (fun e =>
          (e.src == (if j = m then g.nodes.length - 1 else j)) && (e.dst == m)) := by
    rw [List.countP_map, List.countP_reverse, Graph.inEdges, List.countP_filter]
    apply countP_mono_mem
    intro e _ h
    simp only [Function.comp, Bool.and_eq_true, beq_iff_eq, Bool.not_eq_true',
      beq_eq_false_iff_ne] at h ⊢
    exact ⟨h.1.1, h.2⟩
  have hsplit : g.edges.countP
        (fun e => e.src == (if j = m then g.nodes.length - 1 else j))
      = g.edges.countP (fun e =>
          (e.src == (if j = m then g.nodes.length - 1 else j)) && (e.dst == m))
        + g.edges.countP (fun e =>
          (e.src == (if j = m then g.nodes.length - 1 else j)) && !(e.dst == m)) :=
    countP_split g.edges
      (fun e => e.src == (if j = m then g.nodes.length - 1 else j))
      (fun e => e.dst == m)
  conv_rhs => rw [outdeg_eq_countP]
  omega

end Secrust

namespace Secrust

theorem spliceGraph_H (g : Graph) (m t : Nat)
    (hH : ∀ s, s < g.nodes.length → (g.nodeAt s).isMerge = true → g.outdeg s ≤ 1) :
    ∀ s, s < (spliceGraph g m t).nodes.length →
      ((spliceGraph g m t).nodeAt s).isMerge = true → (spliceGraph g m t).outdeg s ≤ 1 := by
  intro s hs hmg
  rw [spliceGraph_len] at hs
  rw [spliceGraph_nodeAt g m t s hs] at hmg
  have hlt : (if s = m then g.nodes.length - 1 else s) < g.nodes.length := by
    split <;> omega
  exact Nat.le_trans (spliceGraph_outdeg_le g m t s hs) (hH _ hlt hmg)

theorem spliceGraph_deg1 (g : Graph) (m t s : Nat)
    (hH : ∀ u, u < g.nodes.length → (g.nodeAt u).isMerge = true → g.outdeg u ≤ 1)
    (hs : s < (spliceGraph g m t).nodes.length)
    (hmg : ((spliceGraph g m t).nodeAt s).isMerge = true)
    (hdeg : (spliceGraph g m t).outdeg s = 1) :
    (g.nodeAt (if s = m then g.nodes.length - 1 else s)).isMerge = true
    ∧ g.outdeg (if s = m then g.nodes.length - 1 else s) = 1 := by
  rw [spliceGraph_len] at hs
  rw [spliceGraph_nodeAt g m t s hs] at hmg
  have hle := spliceGraph_outdeg_le g m t s hs
  have hlt : (if s = m then g.nodes.length - 1 else s) < g.nodes.length := by
    split <;> omega
  have hub := hH _ hlt hmg
  exact ⟨hmg, by omega⟩

theorem wlInv_skip (g : Graph) (m : Nat) (rest : List Nat)
    (hinv : wlInv g (m :: rest))
    (hskip : m < g.nodes.length → g.outdeg m ≠ 1) :
    wlInv g rest := by
  obtain ⟨P, A, hwl, hP, hdesc, hH, hI3, hI4⟩ := hinv
  cases P with
  | nil =>
    rw [List.nil_append] at hwl
    subst hwl
    refine ⟨[], rest, rfl, by simp, (List.pairwise_cons.1 hdesc).2, hH, ?_, ?_⟩
    · intro s hs hmg hdeg
      rcases List.mem_cons.1 (hI3 s hs hmg hdeg) with h | h
      · exact absurd hdeg (h ▸ hskip (h ▸ hs))
      · exact h
    · intro p hp
      simp at hp
  | cons p Ptl =>
    cases Ptl with
    | nil =>
      simp only [List.cons_append, List.nil_append] at hwl
      injection hwl with hmp hrest
      subst hmp
      subst hrest
      refine ⟨[], rest, rfl, by simp, hdesc, hH, hI3, ?_⟩
      intro p hp
      simp at hp
    | cons q Ptl2 =>
      simp only [List.length_cons] at hP
      exact absurd hP (by omega)

theorem wlInv_splice_nopush (g : Graph) (m : Nat) (rest : List Nat) (e : Edge)
    (hinv : wlInv g (m :: rest)) (hm : m < g.nodes.length)
    (hout : g.outEdges m = [e]) :
    wlInv (spliceGraph g m e.dst) rest := by
  obtain ⟨P, A, hwl, hP, hdesc, hH, hI3, hI4⟩ := hinv
  have hdegm : g.outdeg m = 1 := by rw [Graph.outdeg, hout]; rfl
  have hH2 := spliceGraph_H g m e.dst hH
  cases P with
  | nil =>
    rw [List.nil_append] at hwl
    subst hwl
    have hbound : ∀ x ∈ rest, x < m := (List.pairwise_cons.1 hdesc).1
    refine ⟨[], rest, rfl, by simp, (List.pairwise_cons.1 hdesc).2, hH2, ?_, ?_⟩
    · intro s hs hmg hdeg
      have hcore := spliceGraph_deg1 g m e.dst s hH hs hmg hdeg
      by_cases hsm : s = m
      · exfalso
        rw [if_pos hsm] at hcore
        have hmem := hI3 _ (by rw [spliceGraph_len] at hs; omega) hcore.1 hcore.2
        rw [spliceGraph_len] at hs
        rcases List.mem_cons.1 hmem with h | h
        · omega
        · have := hbound _ h
          omega
      · rw [if_neg hsm] at hcore
        rcases List.mem_cons.1
            (hI3 _ (by rw [spliceGraph_len] at hs; omega) hcore.1 hcore.2) with h | h
        · exact absurd h hsm
        · exact h
    · intro p hp
      simp at hp
  | cons p Ptl =>
    cases Ptl with
    | nil =>
      simp only [List.cons_append, List.nil_append] at hwl
      injection hwl with hmp hrest
      subst hmp
      subst hrest
      have hmem : m ∈ rest := hI4 m rfl hm hdegm
      refine ⟨[], rest, rfl, by simp, hdesc, hH2, ?_, ?_⟩
      · intro s hs hmg hdeg
        have hcore := spliceGraph_deg1 g m e.dst s hH hs hmg hdeg
        by_cases hsm : s = m
        · exact hsm ▸ hmem
        · rw [if_neg hsm] at hcore
          exact hI3 _ (by rw [spliceGraph_len] at hs; omega) hcore.1 hcore.2
      · intro p hp
        simp at hp
    | cons q Ptl2 =>
      simp only [List.length_cons] at hP
      exact absurd hP (by omega)

theorem wlInv_splice_push (g : Graph) (m : Nat) (rest : List Nat) (e : Edge)
    (hinv : wlInv g (m :: rest)) (hm : m < g.nodes.length)
    (hout : g.outEdges m = [e]) (hmerge : (g.nodeAt e.dst).isMerge = true) :
    wlInv (spliceGraph g m e.dst) (e.dst :: rest) := by
  obtain ⟨P, A, hwl, hP, hdesc, hH, hI3, hI4⟩ := hinv
  have hdegm : g.outdeg m = 1 := by rw [Graph.outdeg, hout]; rfl
  have hH2 := spliceGraph_H g m e.dst hH
  cases P with
  | nil =>
    rw [List.nil_append] at hwl
    subst hwl
    have hbound : ∀ x ∈ rest, x < m := (List.pairwise_cons.1 hdesc).1
    by_cases htm : e.dst = m
    · refine ⟨[], m :: rest, by rw [htm, List.nil_append], by simp, hdesc, hH2, ?_, ?_⟩
      · intro s hs hmg hdeg
        have hcore := spliceGraph_deg1 g m e.dst s hH hs hmg hdeg
        by_cases hsm : s = m
        · exact hsm ▸ List.mem_cons_self m rest
        · rw [if_neg hsm] at hcore
          exact hI3 _ (by rw [spliceGraph_len] at hs; omega) hcore.1 hcore.2
      · intro p hp
        simp at hp
    · refine ⟨[e.dst], rest, rfl, by simp, (List.pairwise_cons.1 hdesc).2, hH2, ?_, ?_⟩
      · intro s hs hmg hdeg
        have hcore := spliceGraph_deg1 g m e.dst s hH hs hmg hdeg
        by_cases hsm : s = m
        · exfalso
          rw [if_pos hsm] at hcore
          have hmem := hI3 _ (by rw [spliceGraph_len] at hs; omega) hcore.1 hcore.2
          rw [spliceGraph_len] at hs
          rcases List.mem_cons.1 hmem with h | h
          · omega
          · have := hbound _ h
            omega
        · rw [if_neg hsm] at hcore
          rcases List.mem_cons.1
              (hI3 _ (by rw [spliceGraph_len] at hs; omega) hcore.1 hcore.2) with h | h
          · exact absurd h hsm
          · exact h
      · intro p hp hplt hpdeg
        have hpe : p = e.dst := by injection hp with h1 _; exact h1.symm
        subst hpe
        have hlt2 : e.dst < g.nodes.length - 1 := by
          rw [spliceGraph_len] at hplt
          exact hplt
        have hd1 : g.outdeg e.dst = 1 := by
          have hle := spliceGraph_outdeg_le g m e.dst e.dst hlt2
          rw [if_neg htm] at hle
          have hub := hH e.dst (by omega) hmerge
          omega
        rcases List.mem_cons.1 (hI3 e.dst (by omega) hmerge hd1) with h | h
        · exact absurd h htm
        · exact h
  | cons p Ptl =>
    cases Ptl with
    | nil =>
      simp only [List.cons_append, List.nil_append] at hwl
      injection hwl with hmp hrest
      subst hmp
      subst hrest
      have hmem : m ∈ rest := hI4 m rfl hm hdegm
      refine ⟨[e.dst], rest, rfl, by simp, hdesc, hH2, ?_, ?_⟩
      · intro s hs hmg hdeg
        have hcore := spliceGraph_deg1 g m e.dst s hH hs hmg hdeg
        by_cases hsm : s = m
        · exact hsm ▸ hmem
        · rw [if_neg hsm] at hcore
          exact hI3 _ (by rw [spliceGraph_len] at hs; omega) hcore.1 hcore.2
      · intro q hq hqlt hqdeg
        have hqe : q = e.dst := by injection hq with h1 _; exact h1.symm
        subst hqe
        by_cases htm : e.dst = m
        · rw [htm]
          exact hmem
        · have hlt2 : e.dst < g.nodes.length - 1 := by
            rw [spliceGraph_len] at hqlt
            exact hqlt
          have hd1 : g.outdeg e.dst = 1 := by
            have hle := spliceGraph_outdeg_le g m e.dst e.dst hlt2
            rw [if_neg htm] at hle
            have hub := hH e.dst (by omega) hmerge
            omega
          exact hI3 e.dst (by omega) hmerge hd1
    | cons q Ptl2 =>
      simp only [List.length_cons] at hP
      exact absurd hP (by omega)

end Secrust

namespace Secrust

theorem postLoop_cons_nil (g : Graph) (m : Nat) (rest : List Nat)
    (hm : m < g.nodes.length) (hout : g.outEdges m = []) :
    postLoop g (m :: rest) = postLoop g rest := by
  rw [postLoop]
  dsimp only
  rw [dif_pos hm, hout]

theorem postLoop_cons_two (g : Graph) (m : Nat) (rest : List Nat) (e1 e2 : Edge)
    (tl : List Edge) (hm : m < g.nodes.length) (hout : g.outEdges m = e1 :: e2 :: tl) :
    postLoop g (m :: rest) = postLoop g rest := by
  rw [postLoop]
  dsimp only
  rw [dif_pos hm, hout]

theorem postLoop_cons_oob (g : Graph) (m : Nat) (rest : List Nat)
    (hm : ¬ m < g.nodes.length) :
    postLoop g (m :: rest) = postLoop g rest := by
  rw [postLoop]
  dsimp only
  rw [dif_neg hm]

theorem postLoop_cons_push (g : Graph) (m : Nat) (rest : List Nat) (e : Edge)
    (hm : m < g.nodes.length) (hout : g.outEdges m = [e])
    (hb : (g.nodeAt e.dst).isMerge = true) :
    postLoop g (m :: rest) = postLoop (spliceGraph g m e.dst) (e.dst :: rest) := by
  rw [postLoop]
  dsimp only
  rw [dif_pos hm, hout]
  dsimp only
  rw [if_pos hb]
  rfl

theorem postLoop_cons_nopush (g : Graph) (m : Nat) (rest : List Nat) (e : Edge)
    (hm : m < g.nodes.length) (hout : g.outEdges m = [e])
    (hb : ¬ (g.nodeAt e.dst).isMerge = true) :
    postLoop g (m :: rest) = postLoop (spliceGraph g m e.dst) rest := by
  rw [postLoop]
  dsimp only
  rw [dif_pos hm, hout]
  dsimp only
  rw [if_neg hb]
  rfl

theorem postLoop_noHalfMerge (g0 : Graph) (wl0 : List Nat) :
    wlInv g0 wl0 → noHalfMerge (postLoop g0 wl0) := by
  induction g0, wl0 using postLoop.induct with
  | case1 g =>
    intro hinv
    rw [postLoop]
    obtain ⟨P, A, hwl, hP, hdesc, hH, hI3, hI4⟩ := hinv
    obtain ⟨hPnil, hAnil⟩ := List.append_eq_nil.1 hwl.symm
    subst hAnil
    intro s hs hmg hdeg
    exact absurd (hI3 s hs hmg hdeg) (List.not_mem_nil s)
  | case2 g m rest hm hout ih =>
    intro hinv
    rw [postLoop_cons_nil g m rest hm hout]
    refine ih (wlInv_skip g m rest hinv ?_)
    intro _
    rw [Graph.outdeg, hout]
    simp
  | case3 g m rest hm e hout t incoming g1 g2 hb ih =>
    intro hinv
    rw [postLoop_cons_push g m rest e hm hout hb]
    exact ih (wlInv_splice_push g m rest e hinv hm hout hb)
  | case4 g m rest hm e hout t incoming g1 g2 hb ih =>
    intro hinv
    rw [postLoop_cons_nopush g m rest e hm hout hb]
    exact ih (wlInv_splice_nopush g m rest e hinv hm hout)
  | case5 g m rest hm e1 e2 tl hout ih =>
    intro hinv
    rw [postLoop_cons_two g m rest e1 e2 tl hm hout]
    refine ih (wlInv_skip g m rest hinv ?_)
    intro _
    rw [Graph.outdeg, hout]
    simp only [List.length_cons]
    omega
  | case6 g m rest hm ih =>
    intro hinv
    rw [postLoop_cons_oob g m rest hm]
    exact ih (wlInv_skip g m rest hinv (fun h => absurd h hm))

theorem mergeWorklist_inv (g : Graph)
    (hH : ∀ s, s < g.nodes.length → (g.nodeAt s).isMerge = true → g.outdeg s ≤ 1) :
    wlInv g g.mergeWorklist := by
  refine ⟨[], g.mergeWorklist, rfl, by simp, ?_, hH, ?_, ?_⟩
  · rw [Graph.mergeWorklist, List.pairwise_reverse]
    exact List.Pairwise.sublist (List.filter_sublist _) (List.pairwise_lt_range _)
  · intro s hs hmg hdeg
    rw [Graph.mergeWorklist, List.mem_reverse, List.mem_filter, List.mem_range]
    exact ⟨hs, hmg⟩
  · intro p hp
    simp at hp

theorem cleanupLabels_len (g : Graph) :
    (cleanupLabels g).nodes.length = g.nodes.length := by
  simp [cleanupLabels]

theorem cleanupLabels_isMerge (g : Graph) (s : Nat) :
    ((cleanupLabels g).nodeAt s).isMerge = (g.nodeAt s).isMerge := by
  simp only [cleanupLabels, Graph.nodeAt, List.getD, List.get?_eq_getElem?,
    List.getElem?_map]
  cases h : g.nodes[s]? with
  | none => rfl
  | some n => cases n <;> rfl

end Secrust

namespace Secrust

/-- C7 (amended): under the structural invariant that every MergePoint
of the input CFG has at most one outgoing edge, merge-point
post-processing (`post_process`) terminates with no remaining
MergePoint having exactly one outgoing edge at all — in particular
none whose single outgoing edge targets a non-MergePoint: every such
merge is spliced out (incoming edges redirected to its target) or
fused into its target MergePoint. -/
theorem postProcess_merge_spliced (g : Graph)
    (hmerge1 : ∀ s, s < g.nodes.length → (g.nodeAt s).isMerge = true → g.outdeg s ≤ 1) :
    ∀ s, s < g.postProcess.nodes.length →
      (g.postProcess.nodeAt s).isMerge = true → g.postProcess.outdeg s ≠ 1 := by
  have h := postLoop_noHalfMerge g g.mergeWorklist (mergeWorklist_inv g hmerge1)
  intro s hs hmg
  rw [Graph.postProcess] at hs hmg ⊢
  rw [cleanupLabels_len] at hs
  rw [cleanupLabels_isMerge] at hmg
  exact h s hs hmg

theorem postProcess_merge_spliced_witness :
    (∀ s, s < (Graph.mk [CfgNode.mergePoint] []).nodes.length →
        ((Graph.mk [CfgNode.mergePoint] []).nodeAt s).isMerge = true →
        (Graph.mk [CfgNode.mergePoint] []).outdeg s ≤ 1)
    ∧ (∀ s, s < (Graph.mk [CfgNode.mergePoint] []).postProcess.nodes.length →
        ((Graph.mk [CfgNode.mergePoint] []).postProcess.nodeAt s).isMerge = true →
        (Graph.mk [CfgNode.mergePoint] []).postProcess.outdeg s ≠ 1) :=
  ⟨fun _ _ _ => Nat.zero_le 1,
   postProcess_merge_spliced (Graph.mk [CfgNode.mergePoint] [])
     (fun _ _ _ => Nat.zero_le 1)⟩

/-- C7 counterexample: on this five-node CFG (its MergePoint at index 4
has two outgoing edges, so the structural invariant of the amended
claim does not hold), `post_process` terminates with a MergePoint that
still has exactly one outgoing edge whose target is a non-MergePoint
node, refuting the claim for arbitrary input CFGs. The culprit is
petgraph's swap-removal: splicing renames the last node index, and the
worklist entries referring to it go stale. -/
theorem postProcess_leaves_half_merge :
    ((Graph.mk [CfgNode.mergePoint, CfgNode.mergePoint, CfgNode.statement "s" none,
        CfgNode.statement "s" none, CfgNode.mergePoint]
        [Edge.mk 0 3 "", Edge.mk 1 0 "", Edge.mk 2 4 "", Edge.mk 3 0 "",
         Edge.mk 4 2 "", Edge.mk 4 1 ""]).postProcess.nodeAt 1).isMerge = true
    ∧ (Graph.mk [CfgNode.mergePoint, CfgNode.mergePoint, CfgNode.statement "s" none,
        CfgNode.statement "s" none, CfgNode.mergePoint]
        [Edge.mk 0 3 "", Edge.mk 1 0 "", Edge.mk 2 4 "", Edge.mk 3 0 "",
         Edge.mk 4 2 "", Edge.mk 4 1 ""]).postProcess.outEdges 1 = [Edge.mk 1 0 ""]
    ∧ ((Graph.mk [CfgNode.mergePoint, CfgNode.mergePoint, CfgNode.statement "s" none,
        CfgNode.statement "s" none, CfgNode.mergePoint]
        [Edge.mk 0 3 "", Edge.mk 1 0 "", Edge.mk 2 4 "", Edge.mk 3 0 "",
         Edge.mk 4 2 "", Edge.mk 4 1 ""]).postProcess.nodeAt 0).isMerge = false := by
  refine ⟨?_, ?_, ?_⟩ <;>
    simp +decide [Graph.postProcess, Graph.mergeWorklist, postLoop, cleanupLabels,
      Graph.nodeAt, Graph.outEdges, Graph.inEdges, Graph.addEdge, Graph.removeNode,
      CfgNode.isMerge, List.range, List.range.loop, List.filter]

end Secrust
